import Mathlib

/-!
Shallow embedding of the `py_hd44780_i2c_pcf8574` package (HD44780 LCD driver
over a PCF8574 I2C expander, buffered screen layer with a dynamic glyph cache,
and a widget-based menu engine), together with proofs and refutations of the
specification claims.

Python strings are modelled as `List Char`, Python `int` as `Int` (or `Nat`
where the source value is manifestly non-negative), Python dicts as
association lists with dict semantics, and calls into the low-level driver as
an explicit event trace.
-/


namespace HD44780

/-! ### Association-list model of a Python `dict[str, int]`

The glyph cache keeps `dict` state; we model it as an association list whose
operations mirror `dict.get`, `dict.pop(key, None)` and `d[key] = value`
(update in place if the key exists, else append, preserving insertion order,
exactly like a Python dict). -/

def dictGet (d : List (Char × Nat)) (c : Char) : Option Nat :=
  (d.find? (fun p => p.1 == c)).map (fun p => p.2)

def dictPop (d : List (Char × Nat)) (c : Char) : List (Char × Nat) :=
  d.filter (fun p => !(p.1 == c))

def dictSet (d : List (Char × Nat)) (c : Char) (v : Nat) : List (Char × Nat) :=
  if (d.find? (fun p => p.1 == c)).isSome then
    d.map (fun p => if p.1 == c then (c, v) else p)
  else
    d ++ [(c, v)]

/-- Number of set bits among bit positions 0..7 (the used-slot mask is an
8-bit value). -/
def maskCount (m : Nat) : Nat :=
  ((List.range 8).filter (fun i => m.testBit i)).length

/-- Python `m & ~(1 << b)` on a non-negative mask: clear bit `b`. -/
def clearBit (m : Nat) (b : Nat) : Nat :=
  m - (m &&& (1 <<< b))

/-! ### `pins.py`: pin mapping and `bit_mask` -/

/-- PCF8574 bit mapping for an HD44780 in 4-bit mode (`pins.py`,
`PinMapping`).  The dataclass itself performs no validation. -/
structure PinMapping where
  rs : Int
  rw : Int
  e : Int
  bl : Int
  d4 : Int
  d5 : Int
  d6 : Int
  d7 : Int
  blActiveHigh : Bool
deriving Repr, DecidableEq

/-- Model of `pins.bit_mask`: raises `ValueError` unless `0 <= bit <= 7`. -/
def bit_mask (bit : Int) : Except String Nat :=
  if 0 ≤ bit ∧ bit ≤ 7 then Except.ok (1 <<< bit.toNat)
  else Except.error "PCF8574 bit must be 0..7"

/-- Cached per-signal masks computed by `HD44780_PCF8574.__init__`. -/
structure DriverMasks where
  rsMask : Nat
  rwMask : Nat
  eMask : Nat
  blMask : Nat
  d4Mask : Nat
  d5Mask : Nat
  d6Mask : Nat
  d7Mask : Nat
deriving Repr, DecidableEq

/-- Model of `HD44780_PCF8574.__init__`'s pin validation: the constructor
computes `bit_mask` for each of the eight signals, in source order, and a
`ValueError` from any of them aborts construction.  The constructor performs
no bus I/O (it only stores fields), which the model reflects by producing no
event trace. -/
def mkDriverMasks (m : PinMapping) : Except String DriverMasks :=
  match bit_mask m.rs with
  | Except.error e => Except.error e
  | Except.ok rsM =>
  match bit_mask m.rw with
  | Except.error e => Except.error e
  | Except.ok rwM =>
  match bit_mask m.e with
  | Except.error e => Except.error e
  | Except.ok eM =>
  match bit_mask m.bl with
  | Except.error e => Except.error e
  | Except.ok blM =>
  match bit_mask m.d4 with
  | Except.error e => Except.error e
  | Except.ok d4M =>
  match bit_mask m.d5 with
  | Except.error e => Except.error e
  | Except.ok d5M =>
  match bit_mask m.d6 with
  | Except.error e => Except.error e
  | Except.ok d6M =>
  match bit_mask m.d7 with
  | Except.error e => Except.error e
  | Except.ok d7M =>
  Except.ok ⟨rsM, rwM, eM, blM, d4M, d5M, d6M, d7M⟩

/-- Predicate from the claim: all seven signal bit positions (plus the
backlight bit) are pairwise distinct. -/
def pinsDistinct (m : PinMapping) : Prop :=
  ([m.rs, m.rw, m.e, m.bl, m.d4, m.d5, m.d6, m.d7] : List Int).Nodup

instance (m : PinMapping) : Decidable (pinsDistinct m) := by
  unfold pinsDistinct; infer_instance

/-- Predicate from the claim: every signal bit position is in range 0..7. -/
def pinsInRange (m : PinMapping) : Prop :=
  ∀ b ∈ ([m.rs, m.rw, m.e, m.bl, m.d4, m.d5, m.d6, m.d7] : List Int),
    0 ≤ b ∧ b ≤ 7

/-! ### `lcdx.py`: driver cursor state

`HD44780_PCF8574` keeps a software cursor `_it`, a linear index into the
virtual `cols*rows` screen.  Only the operations that read or write `_it`
matter for the cursor invariant; bus writes and timing do not touch it and
are omitted from this state model. -/

structure DrvState where
  cols : Nat
  rows : Nat
  it : Int
deriving Repr, DecidableEq

/-- `HD44780_PCF8574.set_cursor` (clamping both coordinates, then setting the
linear index; the DDRAM address command does not affect `_it`). -/
def dSetCursor (st : DrvState) (col row : Int) : DrvState :=
  let row := if row < 0 then 0 else row
  let col := if col < 0 then 0 else col
  let row := if row ≥ (st.rows : Int) then (st.rows : Int) - 1 else row
  let col := if col ≥ (st.cols : Int) then (st.cols : Int) - 1 else col
  { st with it := row * st.cols + col }

/-- `HD44780_PCF8574.init` ends with `_it = 0`. -/
def dInit (st : DrvState) : DrvState := { st with it := 0 }

/-- `HD44780_PCF8574.clear`. -/
def dClear (st : DrvState) : DrvState := { st with it := 0 }

/-- `HD44780_PCF8574.home`. -/
def dHome (st : DrvState) : DrvState := { st with it := 0 }

/-- `HD44780_PCF8574.line1`. -/
def dLine1 (st : DrvState) : DrvState := { st with it := 0 }

/-- `HD44780_PCF8574.line2`. -/
def dLine2 (st : DrvState) : DrvState :=
  if st.rows < 2 then st else { st with it := (st.cols : Int) }

/-- `HD44780_PCF8574.gotoxy`. -/
def dGotoxy (st : DrvState) (x y : Int) : DrvState :=
  if x < 0 ∨ x ≥ (st.cols : Int) then st
  else if y < 0 ∨ y ≥ (st.rows : Int) then st
  else dSetCursor st x y

/-- `HD44780_PCF8574.up` (Python `%` and `//` are floor mod and floor div). -/
def dUp (st : DrvState) : DrvState :=
  let col := st.it.emod st.cols
  let row := st.it.fdiv st.cols
  if row ≤ 0 then st else dSetCursor st col (row - 1)

/-- `HD44780_PCF8574.down`. -/
def dDown (st : DrvState) : DrvState :=
  let col := st.it.emod st.cols
  let row := st.it.fdiv st.cols
  if row ≥ (st.rows : Int) - 1 then st else dSetCursor st col (row + 1)

/-- `HD44780_PCF8574.curleft`. -/
def dCurleft (st : DrvState) : DrvState :=
  let size : Int := (st.cols : Int) * st.rows
  if size ≤ 0 then { st with it := 0 }
  else
    let it := st.it - 1
    let it := if it < 0 then size - 1 else it
    dSetCursor { st with it := it } (it.emod st.cols) (it.fdiv st.cols)

/-- `HD44780_PCF8574.curright`. -/
def dCurright (st : DrvState) : DrvState :=
  let size : Int := (st.cols : Int) * st.rows
  if size ≤ 0 then { st with it := 0 }
  else
    let it := st.it + 1
    let it := if it ≥ size then 0 else it
    let st := { st with it := it }
    if it.emod st.cols = 0 then dSetCursor st 0 (it.fdiv st.cols) else st

/-- `HD44780_PCF8574.data_it`: `write_char` (no `_it` effect) then
`curright`. -/
def dDataIt (st : DrvState) (v : Int) : DrvState :=
  let _ := v
  dCurright st

/-- `HD44780_PCF8574.str`: `data_it` for each byte of the encoded text. -/
def dStr (st : DrvState) (bytes : List Int) : DrvState :=
  bytes.foldl (fun s b => dDataIt s b) st

/-- `HD44780_PCF8574.back`: `curleft`, `write_char(' ')`, `curleft`. -/
def dBack (st : DrvState) : DrvState :=
  dCurleft (dCurleft st)

/-- Alphabet of driver operations touching the cursor state, used to state
the cursor invariant over arbitrary call sequences. -/
inductive DrvOp where
  | init
  | clear
  | home
  | setCursor (col row : Int)
  | gotoxy (x y : Int)
  | line1
  | line2
  | up
  | down
  | curleft
  | curright
  | dataIt (v : Int)
  | strOp (bytes : List Int)
  | back
deriving Repr, DecidableEq

def dApply (st : DrvState) (op : DrvOp) : DrvState :=
  match op with
  | DrvOp.init => dInit st
  | DrvOp.clear => dClear st
  | DrvOp.home => dHome st
  | DrvOp.setCursor c r => dSetCursor st c r
  | DrvOp.gotoxy x y => dGotoxy st x y
  | DrvOp.line1 => dLine1 st
  | DrvOp.line2 => dLine2 st
  | DrvOp.up => dUp st
  | DrvOp.down => dDown st
  | DrvOp.curleft => dCurleft st
  | DrvOp.curright => dCurright st
  | DrvOp.dataIt v => dDataIt st v
  | DrvOp.strOp bs => dStr st bs
  | DrvOp.back => dBack st

/-- Driver state right after construction and `init()`. -/
def dFresh (cols rows : Nat) : DrvState := ⟨cols, rows, 0⟩

def dRun (cols rows : Nat) (ops : List DrvOp) : DrvState :=
  ops.foldl dApply (dFresh cols rows)



/-! ### `lcds.py`: dynamic glyph catalog -/

/-- Bus-facing events emitted by the buffered-screen layer towards the
`HD44780_PCF8574` driver. -/
inductive LcdEvent where
  | setCursor (col row : Nat)
  | writeChar (code : Nat)
  | createChar (slot : Nat) (pattern : List Nat)
deriving Repr, DecidableEq

/-- Helper `p(*rows)` from `_default_dynamic_charset`: each row byte is
masked with `0x1F` (all listed patterns have exactly 8 rows). -/
def pRows (rows : List Nat) : List Nat :=
  rows.map (fun r => r &&& 0x1F)

/-- The fixed dynamic-character catalog from
`lcds._default_dynamic_charset()`: character, 8-byte CGRAM pattern, ASCII
fallback. -/
def dynCharset : List (Char × (List Nat × Char)) :=
  [ ('ą', (pRows [0x00, 0x0E, 0x01, 0x0F, 0x11, 0x0F, 0x02, 0x01], 'a')),
    ('Ą', (pRows [0x0E, 0x11, 0x11, 0x1F, 0x11, 0x11, 0x02, 0x01], 'A')),
    ('ć', (pRows [0x02, 0x04, 0x0E, 0x10, 0x10, 0x11, 0x0E, 0x00], 'c')),
    ('Ć', (pRows [0x02, 0x04, 0x0E, 0x11, 0x10, 0x11, 0x0E, 0x00], 'C')),
    ('ę', (pRows [0x00, 0x0E, 0x11, 0x1F, 0x10, 0x0E, 0x02, 0x01], 'e')),
    ('Ę', (pRows [0x1F, 0x10, 0x1C, 0x10, 0x10, 0x1F, 0x02, 0x01], 'E')),
    ('ł', (pRows [0x0C, 0x04, 0x06, 0x04, 0x0C, 0x04, 0x0E, 0x00], 'l')),
    ('Ł', (pRows [0x08, 0x08, 0x0A, 0x0C, 0x18, 0x08, 0x0F, 0x00], 'L')),
    ('ń', (pRows [0x02, 0x04, 0x16, 0x19, 0x11, 0x11, 0x11, 0x00], 'n')),
    ('Ń', (pRows [0x02, 0x15, 0x11, 0x19, 0x15, 0x13, 0x11, 0x00], 'N')),
    ('ó', (pRows [0x02, 0x04, 0x0E, 0x11, 0x11, 0x11, 0x0E, 0x00], 'o')),
    ('Ó', (pRows [0x02, 0x04, 0x0E, 0x11, 0x11, 0x11, 0x0E, 0x00], 'O')),
    ('ś', (pRows [0x02, 0x04, 0x0E, 0x10, 0x0E, 0x01, 0x1E, 0x00], 's')),
    ('Ś', (pRows [0x02, 0x04, 0x0F, 0x10, 0x1E, 0x01, 0x1E, 0x00], 'S')),
    ('ż', (pRows [0x02, 0x04, 0x1F, 0x02, 0x04, 0x08, 0x1F, 0x00], 'z')),
    ('Ż', (pRows [0x02, 0x04, 0x1F, 0x02, 0x04, 0x08, 0x1F, 0x00], 'Z')),
    ('ź', (pRows [0x04, 0x00, 0x1F, 0x02, 0x04, 0x08, 0x1F, 0x00], 'z')),
    ('Ź', (pRows [0x04, 0x00, 0x1F, 0x02, 0x04, 0x08, 0x1F, 0x00], 'Z')),
    ('±', (pRows [0x04, 0x04, 0x1F, 0x04, 0x04, 0x00, 0x1F, 0x00], ' ')),
    ('»', (pRows [0x00, 0x14, 0x0A, 0x05, 0x0A, 0x14, 0x00, 0x00], '>')),
    ('°', (pRows [0x06, 0x09, 0x09, 0x06, 0x00, 0x00, 0x00, 0x00], '*')),
    ('\\', (pRows [0x10, 0x08, 0x04, 0x02, 0x01, 0x00, 0x00, 0x00], '/')) ]

/-- Python `ch in self._dyn_charset` / `self._dyn_charset.get(ch)`. -/
def dynLookup (c : Char) : Option (List Nat × Char) :=
  (dynCharset.find? (fun p => p.1 == c)).map (fun p => p.2)

/-- A character is in the dynamic catalog. -/
def dynCatalog (c : Char) : Prop := (dynLookup c).isSome

instance (c : Char) : Decidable (dynCatalog c) := by
  unfold dynCatalog; infer_instance

/-! ### `lcds.py`: glyph-cache state and allocation -/

/-- Runtime state of the dynamic glyph cache inside `LCDS`:
`_dyn_char_to_slot`, `_dyn_slot_to_char`, `_dyn_used_mask`,
`_dyn_rotate_index`. -/
structure DynState where
  charToSlot : List (Char × Nat)
  slotToChar : List (Option Char)
  usedMask : Nat
  rotateIndex : Nat
deriving Repr, DecidableEq

/-- Initial glyph-cache state (also the state after
`LCDS.reset_dynamic_chars`). -/
def initDyn : DynState :=
  ⟨[], List.replicate 8 none, 0, 0⟩

/-- `LCDS._age_dynamic_mask_if_full`: when the used-slot mask is full, free
one slot (round-robin) and advance the rotation pointer. -/
def ageDynamicMaskIfFull (d : DynState) : DynState :=
  if d.usedMask = 0xFF then
    let slot := d.rotateIndex
    { d with usedMask := clearBit d.usedMask slot,
             rotateIndex := (d.rotateIndex + 1) % 8 }
  else d

/-- `LCDS._alloc_dynamic_slot`: return `(slot, created)` (or `none`), the
updated cache state and the driver events issued (`create_char`). -/
def allocDynamicSlot (d : DynState) (ch : Char) :
    Option (Nat × Bool) × DynState × List LcdEvent :=
  match dictGet d.charToSlot ch with
  | some s => (some (s, false), d, [])
  | none =>
    match (List.range 8).find? (fun slot => d.usedMask &&& (1 <<< slot) == 0) with
    | none => (none, d, [])
    | some slot =>
      let d1 :=
        match d.slotToChar.getD slot none with
        | some old => { d with charToSlot := dictPop d.charToSlot old }
        | none => d
      let d2 : DynState :=
        { charToSlot := dictSet d1.charToSlot ch slot,
          slotToChar := d1.slotToChar.set slot (some ch),
          usedMask := d1.usedMask ||| (1 <<< slot),
          rotateIndex := d1.rotateIndex }
      match dynLookup ch with
      | none => (none, d2, [])
      | some entry => (some (slot, true), d2, [LcdEvent.createChar slot entry.1])

/-- Python `ord(ch)` with the final range checks of `_encode_for_lcd`:
codes above `0xFF` render as `?`. -/
def charCode (c : Char) : Nat :=
  if c.toNat ≤ 0xFF then c.toNat else '?'.toNat

/-- Result of `_encode_for_lcd`: output byte, whether a glyph was just
programmed (forcing a cursor reset), the updated cache and the events. -/
structure EncResult where
  code : Nat
  created : Bool
  dyn : DynState
  events : List LcdEvent
deriving Repr, DecidableEq

/-- `LCDS._encode_for_lcd`. -/
def encodeForLcd (useDyn : Bool) (d : DynState) (ch : Char) : EncResult :=
  match (if useDyn then dynLookup ch else none) with
  | some entry =>
    match allocDynamicSlot d ch with
    | (some sc, d2, ev) => ⟨sc.1, sc.2, d2, ev⟩
    | (none, d2, ev) => ⟨charCode entry.2, false, d2, ev⟩
  | none => ⟨charCode ch, false, d, []⟩

/-- The per-changed-cell cache operation performed by `LCDS.flush`:
`_age_dynamic_mask_if_full()` followed by `_encode_for_lcd(ch)`. -/
def cellCache (useDyn : Bool) (d : DynState) (ch : Char) : EncResult :=
  encodeForLcd useDyn (ageDynamicMaskIfFull d) ch

/-- Glyph-cache state after a sequence of changed-cell characters has been
pushed through `flush`'s per-cell cache operation. -/
def runChars (useDyn : Bool) (d : DynState) (l : List Char) : DynState :=
  l.foldl (fun d c => (cellCache useDyn d c).dyn) d

/-! ### `lcds.py`: buffered screen state and operations -/

structure LCDSState where
  cols : Nat
  rows : Nat
  useDyn : Bool
  buf : List Char
  shadow : List Char
  putsLine : Nat
  dyn : DynState
deriving Repr, DecidableEq

/-- `LCDS.__init__`: blank buffer, impossible-sentinel shadow (so the first
flush writes everything), line 0, empty cache. -/
def initLCDS (cols rows : Nat) (useDyn : Bool) : LCDSState :=
  { cols := cols, rows := rows, useDyn := useDyn,
    buf := List.replicate (cols * rows) ' ',
    shadow := List.replicate (cols * rows) (Char.ofNat 0),
    putsLine := 0,
    dyn := initDyn }

/-- `LCDS.clear`. -/
def lcdsClear (st : LCDSState) : LCDSState :=
  { st with buf := List.replicate st.buf.length ' ' }

/-- Write `text` into `buf` starting at linear index `start` (the
`for i, ch in enumerate(text): buf[start + i] = ch` loop). -/
def writeList (buf : List Char) (start : Nat) (text : List Char) : List Char :=
  match text with
  | [] => buf
  | c :: cs => writeList (buf.set start c) (start + 1) cs

/-- `LCDS.clear_line` (row clamped into range). -/
def clearLine (st : LCDSState) (row : Int) : LCDSState :=
  let row : Int := max 0 (min ((st.rows : Int) - 1) row)
  let start : Nat := row.toNat * st.cols
  { st with buf := writeList st.buf start (List.replicate st.cols ' ') }

/-- `LCDS.write_at`. -/
def writeAt (st : LCDSState) (col row : Int) (text : List Char) : LCDSState :=
  if row < 0 ∨ row ≥ (st.rows : Int) then st
  else
    let col := if col < 0 then 0 else col
    if col ≥ (st.cols : Int) then st
    else if text = [] then st
    else
      let maxLen : Int := (st.cols : Int) - col
      let text := text.take maxLen.toNat
      let start : Nat := (row * st.cols + col).toNat
      { st with buf := writeList st.buf start text }

/-- One step of the `for ch in text` loop of `LCDS.puts`: state is
`(buf, line, col)`. -/
def putsStep (cols rows : Nat) (p : List Char × Nat × Nat) (ch : Char) :
    List Char × Nat × Nat :=
  if ch = '\n' then (p.1, (p.2.1 + 1) % rows, 0)
  else (p.1.set (p.2.1 * cols + p.2.2) ch, p.2.1, (p.2.2 + 1) % cols)

/-- `LCDS.puts`: line-based write; remembers only the current line between
calls, clears only that line at the start of the call, then writes from
column 0, wrapping the column within the row and advancing (wrapping) the
row on a line break.  Empty text returns immediately. -/
def puts (st : LCDSState) (text : List Char) : LCDSState :=
  if text = [] then st
  else
    let line := st.putsLine
    let st1 := clearLine st (line : Int)
    let r := text.foldl (putsStep st1.cols st1.rows) (st1.buf, line, 0)
    { st1 with buf := r.1, putsLine := r.2.1 }

/-- Accumulator of the `flush` loop: evolving shadow, cache state, the
`last_written` linear index, and the trace of driver calls made so far. -/
structure FlushAcc where
  shadow : List Char
  dyn : DynState
  lastWritten : Int
  events : List LcdEvent
deriving Repr, DecidableEq

/-- One iteration of `LCDS.flush`'s `for i, ch in enumerate(self._buf)`
loop (Python `//` is floor division). -/
def flushStep (cols : Nat) (useDyn : Bool) (a : FlushAcc) (ic : Nat × Char) :
    FlushAcc :=
  let i := ic.1
  let ch := ic.2
  if a.shadow.getD i (Char.ofNat 0) == ch then a
  else
    let r := cellCache useDyn a.dyn ch
    let needCursor : Bool :=
      r.created || !((i : Int) - a.lastWritten == 1)
        || !(Int.fdiv (i : Int) (cols : Int) == Int.fdiv a.lastWritten (cols : Int))
    let cursorEvents : List LcdEvent :=
      if needCursor then [LcdEvent.setCursor (i % cols) (i / cols)] else []
    { shadow := a.shadow.set i ch,
      dyn := r.dyn,
      lastWritten := (i : Int),
      events := a.events ++ r.events ++ cursorEvents ++ [LcdEvent.writeChar r.code] }

/-- `LCDS.flush`: diff refresh writing only changed cells; returns the new
state and the trace of driver calls. -/
def flush (st : LCDSState) : LCDSState × List LcdEvent :=
  let a := st.buf.enum.foldl (flushStep st.cols st.useDyn)
    ⟨st.shadow, st.dyn, -10000, []⟩
  ({ st with shadow := a.shadow, dyn := a.dyn }, a.events)

/-- `LCDS.reset_dynamic_chars`. -/
def resetDynamicChars (st : LCDSState) : LCDSState :=
  { st with dyn := initDyn }

/-- Alphabet of buffered-screen operations, for stating invariants over
arbitrary call sequences. -/
inductive LOp where
  | writeAtOp (col row : Int) (text : List Char)
  | putsOp (text : List Char)
  | clearOp
  | clearLineOp (row : Int)
  | flushOp
  | resetOp
deriving Repr, DecidableEq

def lApply (st : LCDSState) (op : LOp) : LCDSState :=
  match op with
  | LOp.writeAtOp c r t => writeAt st c r t
  | LOp.putsOp t => puts st t
  | LOp.clearOp => lcdsClear st
  | LOp.clearLineOp r => clearLine st r
  | LOp.flushOp => (flush st).1
  | LOp.resetOp => resetDynamicChars st

def lRun (cols rows : Nat) (useDyn : Bool) (ops : List LOp) : LCDSState :=
  ops.foldl lApply (initLCDS cols rows useDyn)



/-! ### Claim-side reformulation of `puts` (for the refinement claim C4)

Modelled from the spec's words: the row that is the current line at call
entry is cleared at the start of the call and is the only row cleared;
writing then starts at column 0, the column wraps within the same row on
overflow, an embedded line-break advances the current row (wrapping past the
last row) and resets the column to 0 without clearing the newly reached row,
and the remembered current line persists to the next call. -/
def putsSpec (st : LCDSState) (text : List Char) : LCDSState :=
  let entry := st.putsLine
  let cleared := writeList st.buf (entry * st.cols) (List.replicate st.cols ' ')
  let r := text.foldl (putsStep st.cols st.rows) (cleared, entry, 0)
  { st with buf := r.1, putsLine := r.2.1 }

/-! ### `menu/core.py` and `menu/widgets.py`

The menu engine is embedded for the leaf-widget fragment: every widget
modelled below reports `submenu() is None` and the claims under scrutiny all
concern a menu handling an action itself (no open submenu), so the recursive
submenu delegation branch never fires.  The optional observer callback
(`Menu.event`) is modelled by a flag plus a count of firings. -/

/-- `LineAction` codes from `menu/core.py` (an `IntEnum`; all action plumbing
is over plain ints). -/
def actNONE : Int := 0
def actOK : Int := 1
def actLEFT : Int := 2
def actRIGHT : Int := 3
def actUP : Int := 4
def actDOWN : Int := 5
def actON_ENTER : Int := 6
def actON_LEAVE : Int := 7
def actBREAK : Int := 8
def actDIGIT_BASE : Int := 9

/-- Leaf widget states from `menu/widgets.py`.  `positions` of an
enumeration item is its option list; integer fields are Python ints. -/
inductive MWidget where
  | space
  | switchItem (name : String) (enter select : Bool)
  | rangeItem (name : String) (lo hi cur : Int) (enter : Bool)
  | enumItem (name : String) (positions : List String) (pos : Int) (enter : Bool)
  | timeItem (h m s it : Int) (enter : Bool)
  | okItem (hasCommit : Bool) (index : Int) (enter : Bool)
deriving Repr, DecidableEq, Inhabited

/-- `grab()` of each modelled widget class (all return `False`). -/
def wgrab (w : MWidget) : Bool :=
  match w with
  | MWidget.space => false
  | MWidget.switchItem _ _ _ => false
  | MWidget.rangeItem _ _ _ _ _ => false
  | MWidget.enumItem _ _ _ _ => false
  | MWidget.timeItem _ _ _ _ _ => false
  | MWidget.okItem _ _ _ => false

/-- `submenu()` of each modelled widget class (all return `None`). -/
def wsubmenu (w : MWidget) : Option Unit :=
  match w with
  | MWidget.space => none
  | MWidget.switchItem _ _ _ => none
  | MWidget.rangeItem _ _ _ _ _ => none
  | MWidget.enumItem _ _ _ _ => none
  | MWidget.timeItem _ _ _ _ _ => none
  | MWidget.okItem _ _ _ => none

/-- `action(line, action)` of each modelled widget class: returns the
updated widget and the returned action code. -/
def waction (w : MWidget) (action : Int) : MWidget × Int :=
  match w with
  | MWidget.space => (w, actNONE)
  | MWidget.switchItem name enter select =>
    if action = actON_ENTER then (MWidget.switchItem name true select, action)
    else if action = actON_LEAVE then (MWidget.switchItem name false select, action)
    else if action = actLEFT ∨ action = actRIGHT then
      (MWidget.switchItem name enter (!select), action)
    else (w, action)
  | MWidget.rangeItem name lo hi cur enter =>
    if action = actON_ENTER then (MWidget.rangeItem name lo hi cur true, action)
    else if action = actON_LEAVE then (MWidget.rangeItem name lo hi cur false, action)
    else if action = actRIGHT then
      (if cur < hi then MWidget.rangeItem name lo hi (cur + 1) enter else w, action)
    else if action = actLEFT then
      (if cur > lo then MWidget.rangeItem name lo hi (cur - 1) enter else w, action)
    else (w, action)
  | MWidget.enumItem name positions pos enter =>
    if action = actON_ENTER then (MWidget.enumItem name positions pos true, action)
    else if action = actON_LEAVE then (MWidget.enumItem name positions pos false, action)
    else if action = actRIGHT then
      (MWidget.enumItem name positions ((pos + 1).emod positions.length) enter, action)
    else if action = actLEFT then
      (MWidget.enumItem name positions ((pos - 1).emod positions.length) enter, action)
    else (w, action)
  | MWidget.timeItem h m s it enter =>
    if action = actON_ENTER then (MWidget.timeItem h m s it true, action)
    else if action = actON_LEAVE then (MWidget.timeItem h m s it false, action)
    else if action = actOK then (MWidget.timeItem h m s ((it + 1).emod 3) enter, action)
    else if action = actRIGHT then
      (if it = 0 then MWidget.timeItem ((h + 1).emod 24) m s it enter
       else if it = 1 then MWidget.timeItem h ((m + 1).emod 60) s it enter
       else MWidget.timeItem h m ((s + 1).emod 60) it enter, action)
    else (w, action)
  | MWidget.okItem hasCommit index enter =>
    if action = actON_ENTER then (MWidget.okItem hasCommit index true, action)
    else if action = actON_LEAVE then (MWidget.okItem hasCommit index false, action)
    else if action = actOK then (w, actBREAK)
    else (w, action)

/-- `Menu` node state from `menu/core.py`, restricted to leaf children:
ordered children, focused-child index `child_it`, scroll offset `cur_line`,
whether an observer callback is registered, and the `_last_rows` hint. -/
structure MenuS where
  lines : List MWidget
  childIt : Nat
  curLine : Nat
  hasEvent : Bool
  lastRows : Int
deriving Repr, DecidableEq

/-- `Menu._rows_hint()`. -/
def rowsHint (m : MenuS) : Int := max 1 m.lastRows

/-- `Menu.menu_action(action)` for a menu whose children are leaf widgets
(`sub is None` throughout, since no child exposes a submenu).  Returns the
updated menu, the returned action code, and how many times the observer
callback fired during the call. -/
def menuAction (m : MenuS) (action : Int) : MenuS × Int × Nat :=
  if m.lines = [] then (m, actNONE, 0)
  else
    let tailEvent : Nat := if m.hasEvent then 1 else 0
    let current := m.lines.getD m.childIt default
    if action = actNONE then (m, action, tailEvent)
    else if action = actDOWN then
      if wgrab current then (m, action, tailEvent)
      else
        let lines1 := m.lines.set m.childIt (waction current actON_LEAVE).1
        let it1 := (m.childIt + 1) % lines1.length
        let lines2 := lines1.set it1 (waction (lines1.getD it1 default) actON_ENTER).1
        let cur1 :=
          if (m.curLine : Int) < 1000000 ∧ (m.curLine : Int) < rowsHint m - 1 ∧
              (m.curLine : Int) < (m.lines.length : Int) - 1 then
            m.curLine + 1
          else m.curLine
        ({ m with lines := lines2, childIt := it1, curLine := cur1 }, action, tailEvent)
    else if action = actUP then
      if wgrab current then (m, action, tailEvent)
      else
        let lines1 := m.lines.set m.childIt (waction current actON_LEAVE).1
        let it1 := if m.childIt > 0 then m.childIt - 1 else m.lines.length - 1
        let lines2 := lines1.set it1 (waction (lines1.getD it1 default) actON_ENTER).1
        let cur1 := if m.curLine > 0 then m.curLine - 1 else m.curLine
        ({ m with lines := lines2, childIt := it1, curLine := cur1 }, action, tailEvent)
    else if action = actRIGHT ∨ action = actLEFT ∨ action = actON_ENTER ∨
        action = actON_LEAVE then
      match wsubmenu current with
      | none =>
        let lines1 := m.lines.set m.childIt (waction current action).1
        ({ m with lines := lines1 }, action, tailEvent)
      | some _ => (m, action, tailEvent)
    else if action = actOK then
      match wsubmenu current with
      | none =>
        let r := waction current actOK
        let lines1 := m.lines.set m.childIt r.1
        ({ m with lines := lines1 }, r.2, tailEvent)
      | some _ =>
        -- unreachable: no widget in this alphabet exposes a submenu
        (m, action, tailEvent)
    else
      match wsubmenu current with
      | none =>
        let lines1 := m.lines.set m.childIt (waction current action).1
        ({ m with lines := lines1 }, action, tailEvent)
      | some _ =>
        if wgrab current then
          let lines1 := m.lines.set m.childIt (waction current action).1
          ({ m with lines := lines1 }, action, tailEvent)
        else (m, action, tailEvent)



/-! ### Rendering (`_fit`, widget `print`, `Menu.render`) -/

/-- `core._fit(text, size)`: truncate or pad with spaces to exactly `size`
characters (empty for non-positive sizes). -/
def fitL (text : List Char) (size : Int) : List Char :=
  if size ≤ 0 then []
  else if (text.length : Int) ≥ size then text.take size.toNat
  else text ++ List.replicate (size.toNat - text.length) ' '

/-- `widgets._bracket`: editing brackets. -/
def bracketPair (o c : Bool) : Char × Char :=
  (if o then '<' else '[', if c then '>' else ']')

/-- The indexed character-placement loop shared by `RangeItem.print` and
`EnumItem.print`: `for i, ch in enumerate(value): if start + i < size - 1:
out[start+i] = ch`. -/
def placeChars (out : List Char) (start szm1 : Nat) (value : List Char) :
    List Char :=
  value.enum.foldl
    (fun o ic => if start + ic.1 < szm1 then o.set (start + ic.1) ic.2 else o)
    out

/-- Common body of `RangeItem.print` / `EnumItem.print` once the value
string is known: place the opening bracket, the value and the closing
bracket over the name-padded buffer. -/
def valueLinePrint (name : String) (value : List Char) (enter : Bool)
    (size : Int) : List Char :=
  if size ≤ 0 then []
  else
    let sz := size.toNat
    -- `buf = " "*size`, overwritten by `left[:size].ljust(size)` when the
    -- name is non-empty; both coincide with `_fit(name, size)`.
    let buf := fitL name.data size
    let oc := bracketPair enter enter
    let pos : Nat := sz - (value.length + 2)
    let out := if pos < sz then buf.set pos oc.1 else buf
    let start := pos + 1
    let out := placeChars out start (sz - 1) (value.take (sz - start - 1))
    if sz ≥ 1 then out.set (sz - 1) oc.2 else out

/-- Python `f"{v:02d}"` for the small non-negative time fields. -/
def twoDigits (v : Int) : List Char :=
  let s := (toString v).data
  if s.length < 2 then '0' :: s else s

/-- The raw `inh.print(line, size)` of each modelled widget class. -/
def wprintRaw (w : MWidget) (size : Int) : List Char :=
  match w with
  | MWidget.space => List.replicate (max 0 size).toNat '-'
  | MWidget.switchItem name enter select =>
    if size < 4 then []
    else
      let base := fitL name.data size
      let base := base.take (max 0 (size - 3)).toNat
      let base := fitL base (size - 3)
      let oc := bracketPair enter enter
      let mid := if select then '*' else ' '
      base ++ [oc.1, mid, oc.2]
  | MWidget.rangeItem name _ _ cur enter =>
    valueLinePrint name (toString cur).data enter size
  | MWidget.enumItem name positions pos enter =>
    valueLinePrint name (positions.getD pos.toNat "").data enter size
  | MWidget.timeItem h m s it enter =>
    let itv : Int := if enter then it else 255
    let seg : Int → Int → List Char := fun i v =>
      let sg := twoDigits v
      if itv = i then '<' :: (sg ++ ['>']) else sg
    fitL (seg 0 h ++ [':'] ++ seg 1 m ++ [':'] ++ seg 2 s) size
  | MWidget.okItem _ _ _ => "Save".data

/-- `Line.print(size)`: `_fit(inh.print(line, size), size)`. -/
def wprint (w : MWidget) (size : Int) : List Char :=
  fitL (wprintRaw w size) size

/-- `Menu.render(cols, rows)` for the leaf-widget fragment (no active
submenu): exactly `rows` lines, each a 2-character focus marker followed by
the child selected by `(child_it + i + n - cur_line) mod n`. -/
def renderMenu (m : MenuS) (cols rows : Int) : List (List Char) :=
  if cols ≤ 0 ∨ rows ≤ 0 then []
  else
    let n := m.lines.length
    (List.range rows.toNat).map (fun i =>
      if i < n then
        let idx := ((m.childIt : Int) + i + n - m.curLine).emod n
        let body := wprint (m.lines.getD idx.toNat default) (cols - 2)
        let marker := if i = m.curLine then "> ".data else "  ".data
        fitL (marker ++ body) cols
      else
        fitL ("  ".data ++ List.replicate (cols - 2).toNat ' ') cols)



/-! ### Canonical glyph-cache states

For runs that introduce at most 8 distinct catalog characters the cache
state is completely determined by the list of distinct catalog characters in
first-occurrence order, plus a single flag recording whether the round-robin
aging has already fired once after the mask filled up. -/

/-- Association list mapping `cs[i] ↦ k + i` (insertion order). -/
def canonDictAux (k : Nat) (cs : List Char) : List (Char × Nat) :=
  match cs with
  | [] => []
  | c :: rest => (c, k) :: canonDictAux (k + 1) rest

/-- Canonical cache state: characters `cs` sit in slots `0..cs.length-1` in
insertion order; when `aged` is set (possible only with all 8 slots mapped),
the rotation has freed bit 0 and advanced to 1. -/
def canonState (cs : List Char) (aged : Bool) : DynState :=
  { charToSlot := canonDictAux 0 cs,
    slotToChar := cs.map some ++ List.replicate (8 - cs.length) none,
    usedMask := if aged then 254 else 2 ^ cs.length - 1,
    rotateIndex := if aged then 1 else 0 }

/-- One step of the seen-characters abstraction: `cs` is the list of
distinct catalog characters encountered so far (first-occurrence order) and
the flag records whether some cell was processed while the mask was full. -/
def seenStep (p : List Char × Bool) (c : Char) : List Char × Bool :=
  ( if (dynLookup c).isSome ∧ ¬ p.1.contains c then p.1 ++ [c] else p.1,
    p.2 || decide (p.1.length = 8) )

def seenSt (l : List Char) : List Char × Bool :=
  l.foldl seenStep ([], false)

/-- Distinct catalog characters brought in by the processed cells, in
first-occurrence order. -/
def catChars (l : List Char) : List Char := (seenSt l).1

def agedFlag (l : List Char) : Bool := (seenSt l).2



/-! ### Claim C8: pin validation at driver construction -/

/-- Pin mapping with a duplicated bit assignment (RS and RW both on bit 0);
every bit is nevertheless in range 0..7. -/
def dupPins : PinMapping := ⟨0, 0, 2, 3, 4, 5, 6, 7, true⟩

/-- C8 counterexample: the claim says construction rejects any pin map whose
signal bits are not pairwise distinct, but `HD44780_PCF8574.__init__` only
runs `bit_mask` range checks — a mapping assigning RS and RW to the same bit
constructs successfully. -/
theorem c8_counterexample :
    (mkDriverMasks dupPins).isOk = true ∧ ¬ pinsDistinct dupPins := by
  exact ⟨rfl, by decide⟩

/-- C8 amended: construction validates exactly that every signal bit
position is in range 0..7 (synchronously, with no bus I/O — the constructor
only computes masks); pairwise distinctness is not checked. -/
theorem c8_amended_range_validation (m : PinMapping) :
    (mkDriverMasks m).isOk = true ↔ pinsInRange m := by
  have hb : ∀ b : Int, (∃ v, bit_mask b = Except.ok v) ↔ (0 ≤ b ∧ b ≤ 7) := by
    intro b
    unfold bit_mask
    by_cases h : 0 ≤ b ∧ b ≤ 7 <;> simp [h]
  constructor
  · intro h
    unfold mkDriverMasks at h
    rcases h1 : bit_mask m.rs with e | v1 <;> rw [h1] at h
    · simp [Except.isOk, Except.toBool] at h
    rcases h2 : bit_mask m.rw with e | v2 <;> rw [h2] at h
    · simp [Except.isOk, Except.toBool] at h
    rcases h3 : bit_mask m.e with e | v3 <;> rw [h3] at h
    · simp [Except.isOk, Except.toBool] at h
    rcases h4 : bit_mask m.bl with e | v4 <;> rw [h4] at h
    · simp [Except.isOk, Except.toBool] at h
    rcases h5 : bit_mask m.d4 with e | v5 <;> rw [h5] at h
    · simp [Except.isOk, Except.toBool] at h
    rcases h6 : bit_mask m.d5 with e | v6 <;> rw [h6] at h
    · simp [Except.isOk, Except.toBool] at h
    rcases h7 : bit_mask m.d6 with e | v7 <;> rw [h7] at h
    · simp [Except.isOk, Except.toBool] at h
    rcases h8 : bit_mask m.d7 with e | v8 <;> rw [h8] at h
    · simp [Except.isOk, Except.toBool] at h
    intro b hbm
    fin_cases hbm
    · exact (hb m.rs).mp ⟨v1, h1⟩
    · exact (hb m.rw).mp ⟨v2, h2⟩
    · exact (hb m.e).mp ⟨v3, h3⟩
    · exact (hb m.bl).mp ⟨v4, h4⟩
    · exact (hb m.d4).mp ⟨v5, h5⟩
    · exact (hb m.d5).mp ⟨v6, h6⟩
    · exact (hb m.d6).mp ⟨v7, h7⟩
    · exact (hb m.d7).mp ⟨v8, h8⟩
  · intro h
    obtain ⟨v1, h1⟩ := (hb m.rs).mpr (h m.rs (by simp))
    obtain ⟨v2, h2⟩ := (hb m.rw).mpr (h m.rw (by simp))
    obtain ⟨v3, h3⟩ := (hb m.e).mpr (h m.e (by simp))
    obtain ⟨v4, h4⟩ := (hb m.bl).mpr (h m.bl (by simp))
    obtain ⟨v5, h5⟩ := (hb m.d4).mpr (h m.d4 (by simp))
    obtain ⟨v6, h6⟩ := (hb m.d5).mpr (h m.d5 (by simp))
    obtain ⟨v7, h7⟩ := (hb m.d6).mpr (h m.d6 (by simp))
    obtain ⟨v8, h8⟩ := (hb m.d7).mpr (h m.d7 (by simp))
    unfold mkDriverMasks
    rw [h1, h2, h3, h4, h5, h6, h7, h8]
    rfl

/-! ### Claim C7: LEFT/RIGHT on range, enumeration and time widgets -/

/-- C7 counterexample: `TimeItem.action` has no LEFT branch at all, so LEFT
on a time widget editing the hour field leaves the state unchanged, whereas
the claim requires a decrement (from 5 to 4, wrapping modulo 24). -/
theorem c7_counterexample :
    (waction (MWidget.timeItem 5 0 0 0 true) actLEFT).1
        = MWidget.timeItem 5 0 0 0 true ∧
    ¬ (waction (MWidget.timeItem 5 0 0 0 true) actLEFT).1
        = MWidget.timeItem 4 0 0 0 true := by
  exact ⟨rfl, by decide⟩

/-- C7 amended: LEFT decrements and RIGHT increments with clamping for range
widgets and with modular wraparound for enumeration widgets; on the time
widget RIGHT increments the focused sub-field modulo 24/60/60 and OK cycles
the edited sub-field through hour, minute, second, but LEFT leaves the time
unchanged (the source has no LEFT branch for `TimeItem`). -/
theorem c7_amended_widget_actions (name : String) (lo hi cur : Int) (e : Bool)
    (positions : List String) (pos : Int) (h m s it : Int)
    (hlo : lo ≤ cur) (hhi : cur ≤ hi)
    (hpos0 : 0 ≤ pos) (hposn : pos < (positions.length : Int)) :
    (waction (MWidget.rangeItem name lo hi cur e) actRIGHT).1
      = MWidget.rangeItem name lo hi (min hi (cur + 1)) e ∧
    (waction (MWidget.rangeItem name lo hi cur e) actLEFT).1
      = MWidget.rangeItem name lo hi (max lo (cur - 1)) e ∧
    (waction (MWidget.enumItem name positions pos e) actRIGHT).1
      = MWidget.enumItem name positions ((pos + 1).emod positions.length) e ∧
    (waction (MWidget.enumItem name positions pos e) actLEFT).1
      = MWidget.enumItem name positions ((pos - 1).emod positions.length) e ∧
    ((pos : Int) = (positions.length : Int) - 1 →
      (pos + 1).emod positions.length = 0) ∧
    ((pos : Int) = 0 →
      (pos - 1).emod positions.length = (positions.length : Int) - 1) ∧
    (waction (MWidget.timeItem h m s 0 e) actRIGHT).1
      = MWidget.timeItem ((h + 1).emod 24) m s 0 e ∧
    (waction (MWidget.timeItem h m s 1 e) actRIGHT).1
      = MWidget.timeItem h ((m + 1).emod 60) s 1 e ∧
    (waction (MWidget.timeItem h m s 2 e) actRIGHT).1
      = MWidget.timeItem h m ((s + 1).emod 60) 2 e ∧
    (waction (MWidget.timeItem h m s it e) actOK).1
      = MWidget.timeItem h m s ((it + 1).emod 3) e ∧
    (waction (MWidget.timeItem h m s it e) actLEFT).1
      = MWidget.timeItem h m s it e := by
  have hlen : 0 < (positions.length : Int) := lt_of_le_of_lt hpos0 hposn
  refine ⟨?_, ?_,
    by simp [waction, actNONE, actOK, actLEFT, actRIGHT, actON_ENTER, actON_LEAVE],
    by simp [waction, actNONE, actOK, actLEFT, actRIGHT, actON_ENTER, actON_LEAVE], ?_, ?_,
    by simp [waction, actNONE, actOK, actLEFT, actRIGHT, actON_ENTER, actON_LEAVE],
    by simp [waction, actNONE, actOK, actLEFT, actRIGHT, actON_ENTER, actON_LEAVE],
    by simp [waction, actNONE, actOK, actLEFT, actRIGHT, actON_ENTER, actON_LEAVE],
    by simp [waction, actNONE, actOK, actLEFT, actRIGHT, actON_ENTER, actON_LEAVE],
    by simp [waction, actNONE, actOK, actLEFT, actRIGHT, actON_ENTER, actON_LEAVE]⟩
  · simp only [waction, actRIGHT, actON_ENTER, actON_LEAVE]
    norm_num
    rcases lt_or_eq_of_le hhi with hc | hc
    · rw [if_pos hc, min_eq_right (by omega)]
    · rw [if_neg (by omega), min_eq_left (by omega), hc]
  · simp only [waction, actLEFT, actON_ENTER, actON_LEAVE, actRIGHT]
    norm_num
    rcases lt_or_eq_of_le hlo with hc | hc
    · rw [if_pos hc, max_eq_right (by omega)]
    · rw [if_neg (by omega), max_eq_left (by omega), ← hc]
  · intro hp
    have hself : (positions.length : Int) - 1 + 1 = (positions.length : Int) := by ring
    rw [hp, hself]
    exact Int.emod_self
  · intro hp
    rw [hp]
    rw [show ((0:Int) - 1).emod (positions.length : Int)
        = ((0:Int) - 1 + (positions.length : Int) * 1).emod (positions.length : Int) from
      (Int.add_mul_emod_self_left _ _ _).symm]
    rw [show (0:Int) - 1 + (positions.length : Int) * 1 = (positions.length : Int) - 1 by ring]
    exact Int.emod_eq_of_lt (by omega) (by omega)


/-- C7 amended witness: the amended widget-action theorem instantiated on a
concrete range widget (bounds 0..5, value 5), a three-option enumeration at
position 0 and a time widget at 5:0:0. -/
theorem c7_amended_widget_actions_witness :
    (waction (MWidget.rangeItem "r" 0 5 5 false) actRIGHT).1
      = MWidget.rangeItem "r" 0 5 (min 5 (5 + 1)) false ∧
    (waction (MWidget.rangeItem "r" 0 5 5 false) actLEFT).1
      = MWidget.rangeItem "r" 0 5 (max 0 (5 - 1)) false ∧
    (waction (MWidget.enumItem "r" ["a", "b", "c"] 0 false) actRIGHT).1
      = MWidget.enumItem "r" ["a", "b", "c"] (((0 : Int) + 1).emod (["a", "b", "c"] : List String).length) false ∧
    (waction (MWidget.enumItem "r" ["a", "b", "c"] 0 false) actLEFT).1
      = MWidget.enumItem "r" ["a", "b", "c"] (((0 : Int) - 1).emod (["a", "b", "c"] : List String).length) false ∧
    ((0 : Int) = ((["a", "b", "c"] : List String).length : Int) - 1 →
      ((0 : Int) + 1).emod (["a", "b", "c"] : List String).length = 0) ∧
    ((0 : Int) = 0 →
      ((0 : Int) - 1).emod (["a", "b", "c"] : List String).length
        = ((["a", "b", "c"] : List String).length : Int) - 1) ∧
    (waction (MWidget.timeItem 5 0 0 0 false) actRIGHT).1
      = MWidget.timeItem (((5 : Int) + 1).emod 24) 0 0 0 false ∧
    (waction (MWidget.timeItem 5 0 0 1 false) actRIGHT).1
      = MWidget.timeItem 5 (((0 : Int) + 1).emod 60) 0 1 false ∧
    (waction (MWidget.timeItem 5 0 0 2 false) actRIGHT).1
      = MWidget.timeItem 5 0 (((0 : Int) + 1).emod 60) 2 false ∧
    (waction (MWidget.timeItem 5 0 0 0 false) actOK).1
      = MWidget.timeItem 5 0 0 (((0 : Int) + 1).emod 3) false ∧
    (waction (MWidget.timeItem 5 0 0 0 false) actLEFT).1
      = MWidget.timeItem 5 0 0 0 false :=
  c7_amended_widget_actions "r" 0 5 5 false ["a", "b", "c"] 0 5 0 0 0
    (by decide) (by decide) (by decide) (by decide)

/-! ### Claim C6: OK forwarding and the observer callback -/

/-- Every widget in the modelled (leaf) alphabet reports no submenu, as do
the corresponding classes in `menu/widgets.py`. -/
theorem wsubmenu_eq_none (w : MWidget) : wsubmenu w = none := by
  cases w <;> rfl

/-- No widget in the modelled alphabet grabs input. -/
theorem wgrab_eq_false (w : MWidget) : wgrab w = false := by
  cases w <;> rfl

/-- Menu with a single save-button child (`Ok` widget, whose `action`
returns BREAK on OK) and a registered observer callback. -/
def c6Menu : MenuS :=
  { lines := [MWidget.okItem false 0 false], childIt := 0, curLine := 0,
    hasEvent := true, lastRows := 2 }

/-- C6 counterexample: the focused child (an `Ok` widget) has no submenu and
its handler returns BREAK on OK, yet the observer callback fires once —
`menu_action`'s OK branch invokes `self.event` unconditionally, contradicting
the claim that the callback fires only when the child returns non-BREAK. -/
theorem c6_counterexample :
    (menuAction c6Menu actOK).2.1 = actBREAK ∧
    (menuAction c6Menu actOK).2.2 = 1 := by
  exact ⟨rfl, rfl⟩

/-- C6 amended: for a menu handling OK itself whose focused child exposes no
submenu, OK is forwarded to that child and the menu call returns the child's
return value; the observer callback fires exactly once whenever one is
registered, regardless of whether the child returned BREAK. -/
theorem c6_amended_ok_forwarding (m : MenuS) (h1 : m.lines ≠ [])
    (h2 : m.childIt < m.lines.length) :
    (menuAction m actOK).2.1
      = (waction (m.lines.getD m.childIt default) actOK).2 ∧
    (menuAction m actOK).1
      = { m with lines :=
            m.lines.set m.childIt (waction (m.lines.getD m.childIt default) actOK).1 } ∧
    (menuAction m actOK).2.2 = (if m.hasEvent then 1 else 0) := by
  have _ := h2
  unfold menuAction
  rw [if_neg h1]
  simp only [actOK, actNONE, actDOWN, actUP, actRIGHT, actLEFT, actON_ENTER,
    actON_LEAVE, wsubmenu_eq_none]
  norm_num

/-- C6 amended witness: a concrete menu (save button plus a registered
observer) instantiating the OK-forwarding theorem. -/
theorem c6_amended_ok_forwarding_witness :
    (menuAction c6Menu actOK).2.1
      = (waction (c6Menu.lines.getD c6Menu.childIt default) actOK).2 ∧
    (menuAction c6Menu actOK).1
      = { c6Menu with lines := (c6Menu.lines.set c6Menu.childIt ((waction (c6Menu.lines.getD c6Menu.childIt default) actOK).1)) } ∧
    (menuAction c6Menu actOK).2.2 = (if c6Menu.hasEvent then 1 else 0) :=
  c6_amended_ok_forwarding c6Menu (by decide) (by decide)

/-! ### Claim C5: DOWN navigation and scroll clamping -/

/-- The 4-item menu of the claim's scenario (window height hint 2, focus 0,
scroll offset 0). -/
def c5Menu : MenuS :=
  { lines := [MWidget.rangeItem "A" 0 9 0 false, MWidget.rangeItem "B" 0 9 1 false,
              MWidget.rangeItem "C" 0 9 2 false, MWidget.rangeItem "D" 0 9 3 false],
    childIt := 0, curLine := 0, hasEvent := false, lastRows := 2 }

/-- Menu state after three consecutive DOWN actions. -/
def c5After : MenuS :=
  (menuAction (menuAction (menuAction c5Menu actDOWN).1 actDOWN).1 actDOWN).1

/-- C5: three DOWNs on a 4-item menu with window height 2 leave the focus at
index 3 (cyclic) with the scroll offset clamped at
`min(height-1, itemCount-1) = 1`; the first rendered row then shows item
index 2 (the row-selection formula yields 2 and the row text renders child
2); and in general one DOWN advances the scroll offset only when it is below
both the window-height bound and the item-count bound. -/
theorem c5_menu_down_navigation :
    c5After.childIt = 3 ∧
    c5After.curLine = 1 ∧
    (c5After.curLine : Int) = min ((2 : Int) - 1) ((c5Menu.lines.length : Int) - 1) ∧
    ((c5After.childIt : Int) + 0 + c5After.lines.length - c5After.curLine).emod
        c5After.lines.length = 2 ∧
    (renderMenu c5After 16 2).getD 0 []
      = "  ".data ++ wprint (c5After.lines.getD 2 default) 14 ∧
    (renderMenu c5After 16 2).getD 0 [] = "  C          [2]".data ∧
    (∀ m : MenuS,
      (menuAction m actDOWN).1.curLine = m.curLine ∨
      ((m.curLine : Int) < min (rowsHint m - 1) ((m.lines.length : Int) - 1) ∧
        (menuAction m actDOWN).1.curLine = m.curLine + 1)) := by
  refine ⟨by decide, by decide, by decide, by decide, by decide, by decide, ?_⟩
  intro m
  unfold menuAction
  by_cases hempty : m.lines = []
  · rw [if_pos hempty]
    exact Or.inl rfl
  rw [if_neg hempty]
  simp only [actDOWN, actNONE, wgrab_eq_false]
  norm_num
  omega


/-! ### Claim C4: line-oriented `puts` -/

/-- A 2x2 screen whose buffer holds `ABCD`, current line 0. -/
def c4State : LCDSState := { initLCDS 2 2 true with buf := "ABCD".data }

/-- C4 counterexample: the claim covers "any text including the empty
string", but `puts("")` returns before clearing anything, leaving cell (0,0)
as `A`; the claim-side behaviour (`putsSpec`, which always clears the entry
row first) would blank the first row. -/
theorem c4_counterexample :
    puts c4State [] = c4State ∧
    (putsSpec c4State []).buf = "  CD".data ∧
    (puts c4State []).buf.getD 0 ' ' = 'A' := by
  refine ⟨rfl, by decide, rfl⟩

/-- C4 amended: for non-empty text (and a remembered line inside the row
range, which `puts` maintains), `puts` behaves exactly as the claim
describes: it clears precisely the row that is current at entry, writes from
column 0 wrapping the column within the row, advances the row (wrapping) on
a line break without clearing the newly reached row, and the final current
line persists in the state.  Empty text is a no-op instead. -/
theorem c4_amended_puts_eq_spec (st : LCDSState) (text : List Char)
    (h1 : st.putsLine < st.rows) (h2 : text ≠ []) :
    puts st text = putsSpec st text := by
  have hmin : min ((st.rows : Int) - 1) (st.putsLine : Int) = (st.putsLine : Int) :=
    min_eq_right (by omega)
  have hmax : max (0 : Int) (st.putsLine : Int) = (st.putsLine : Int) :=
    max_eq_right (by omega)
  simp only [puts, putsSpec, clearLine, if_neg h2, hmin, hmax]
  simp

/-- C4 amended witness: writing `A\nB` on a fresh 4x2 screen. -/
theorem c4_amended_puts_eq_spec_witness :
    puts (initLCDS 4 2 true) ('A' :: '\n' :: ['B']) = putsSpec (initLCDS 4 2 true) ('A' :: '\n' :: ['B']) :=
  c4_amended_puts_eq_spec (initLCDS 4 2 true) ('A' :: '\n' :: ['B']) (by decide) (by decide)


/-! ### Claim C10: the linear software cursor stays in range -/

/-- Cursor invariant: the linear index lies in `[0, cols*rows)`. -/
def drvInv (st : DrvState) : Prop :=
  0 ≤ st.it ∧ st.it < (st.cols : Int) * st.rows

/-- Row-major linear index of clamped coordinates is in range. -/
theorem linIndexBounds {row col cols rows : Int} (hr0 : 0 ≤ row) (hr1 : row < rows)
    (hc0 : 0 ≤ col) (hc1 : col < cols) :
    0 ≤ row * cols + col ∧ row * cols + col < cols * rows := by
  constructor
  · have h := mul_nonneg hr0 (le_trans hc0 (le_of_lt hc1))
    omega
  · have h2 : row * cols + col < (row + 1) * cols := by nlinarith
    have h3 : (row + 1) * cols ≤ rows * cols :=
      mul_le_mul_of_nonneg_right (by omega) (by omega)
    have h4 : rows * cols = cols * rows := mul_comm _ _
    omega

theorem dSetCursor_inv (st : DrvState) (col row : Int) (hc : 1 ≤ st.cols)
    (hr : 1 ≤ st.rows) : drvInv (dSetCursor st col row) := by
  unfold dSetCursor drvInv
  dsimp only
  split_ifs <;>
    exact linIndexBounds (by omega) (by omega) (by omega) (by omega)

theorem dSetCursor_cols (st : DrvState) (col row : Int) :
    (dSetCursor st col row).cols = st.cols := rfl

theorem dSetCursor_rows (st : DrvState) (col row : Int) :
    (dSetCursor st col row).rows = st.rows := rfl

theorem dCurleft_fields (st : DrvState) :
    (dCurleft st).cols = st.cols ∧ (dCurleft st).rows = st.rows := by
  unfold dCurleft
  dsimp only
  split_ifs <;> exact ⟨rfl, rfl⟩

theorem dCurleft_inv (st : DrvState) (hc : 1 ≤ st.cols) (hr : 1 ≤ st.rows) :
    drvInv (dCurleft st) := by
  unfold dCurleft
  have hsize : ¬ ((st.cols : Int) * st.rows ≤ 0) := by
    have : (1 : Int) * 1 ≤ (st.cols : Int) * st.rows :=
      mul_le_mul (by exact_mod_cast hc) (by exact_mod_cast hr) (by omega) (by omega)
    omega
  dsimp only
  rw [if_neg hsize]
  exact dSetCursor_inv _ _ _ hc hr

theorem dCurright_fields (st : DrvState) :
    (dCurright st).cols = st.cols ∧ (dCurright st).rows = st.rows := by
  unfold dCurright
  dsimp only
  split_ifs <;> exact ⟨rfl, rfl⟩

theorem dCurright_inv (st : DrvState) (hc : 1 ≤ st.cols) (hr : 1 ≤ st.rows)
    (hinv : drvInv st) : drvInv (dCurright st) := by
  unfold dCurright
  have hsize : ¬ ((st.cols : Int) * st.rows ≤ 0) := by
    have : (1 : Int) * 1 ≤ (st.cols : Int) * st.rows :=
      mul_le_mul (by exact_mod_cast hc) (by exact_mod_cast hr) (by omega) (by omega)
    omega
  dsimp only
  rw [if_neg hsize]
  split_ifs with h1 h2
  · exact dSetCursor_inv _ _ _ hc hr
  · obtain ⟨ha, hb⟩ := hinv
    constructor
    · dsimp only; omega
    · dsimp only; omega
  · exact dSetCursor_inv _ _ _ hc hr
  · obtain ⟨ha, hb⟩ := hinv
    constructor
    · dsimp only; omega
    · dsimp only; omega

theorem dApply_inv (st : DrvState) (op : DrvOp) (hc : 1 ≤ st.cols)
    (hr : 1 ≤ st.rows) (hinv : drvInv st) :
    (dApply st op).cols = st.cols ∧ (dApply st op).rows = st.rows ∧
      drvInv (dApply st op) := by
  have hpos : (0 : Int) < (st.cols : Int) * st.rows := by
    have : (1 : Int) * 1 ≤ (st.cols : Int) * st.rows :=
      mul_le_mul (by exact_mod_cast hc) (by exact_mod_cast hr) (by omega) (by omega)
    omega
  cases op with
  | init => exact ⟨rfl, rfl, le_refl 0, hpos⟩
  | clear => exact ⟨rfl, rfl, le_refl 0, hpos⟩
  | home => exact ⟨rfl, rfl, le_refl 0, hpos⟩
  | line1 => exact ⟨rfl, rfl, le_refl 0, hpos⟩
  | line2 =>
    have heq : dApply st DrvOp.line2 = dLine2 st := rfl
    rw [heq]
    unfold dLine2
    split_ifs with h
    · exact ⟨rfl, rfl, hinv⟩
    · refine ⟨rfl, rfl, ?_, ?_⟩
      · show (0 : Int) ≤ (st.cols : Int)
        exact_mod_cast Nat.zero_le st.cols
      · show (st.cols : Int) < (st.cols : Int) * st.rows
        have h2 : 2 ≤ st.rows := by omega
        have h5 : (st.cols : Int) * 2 ≤ (st.cols : Int) * st.rows :=
          mul_le_mul_of_nonneg_left (by exact_mod_cast h2) (by omega)
        omega
  | setCursor c r => exact ⟨rfl, rfl, dSetCursor_inv _ _ _ hc hr⟩
  | gotoxy x y =>
    have heq : dApply st (DrvOp.gotoxy x y) = dGotoxy st x y := rfl
    rw [heq]
    unfold dGotoxy
    split_ifs
    · exact ⟨rfl, rfl, hinv⟩
    · exact ⟨rfl, rfl, hinv⟩
    · exact ⟨rfl, rfl, dSetCursor_inv _ _ _ hc hr⟩
  | up =>
    have heq : dApply st DrvOp.up = dUp st := rfl
    rw [heq]
    unfold dUp
    dsimp only
    split_ifs
    · exact ⟨rfl, rfl, hinv⟩
    · exact ⟨rfl, rfl, dSetCursor_inv _ _ _ hc hr⟩
  | down =>
    have heq : dApply st DrvOp.down = dDown st := rfl
    rw [heq]
    unfold dDown
    dsimp only
    split_ifs
    · exact ⟨rfl, rfl, hinv⟩
    · exact ⟨rfl, rfl, dSetCursor_inv _ _ _ hc hr⟩
  | curleft =>
    exact ⟨(dCurleft_fields st).1, (dCurleft_fields st).2, dCurleft_inv st hc hr⟩
  | curright =>
    exact ⟨(dCurright_fields st).1, (dCurright_fields st).2,
      dCurright_inv st hc hr hinv⟩
  | dataIt v =>
    exact ⟨(dCurright_fields st).1, (dCurright_fields st).2,
      dCurright_inv st hc hr hinv⟩
  | strOp bs =>
    show (dStr st bs).cols = st.cols ∧ (dStr st bs).rows = st.rows ∧ drvInv (dStr st bs)
    clear hpos
    induction bs generalizing st with
    | nil => exact ⟨rfl, rfl, hinv⟩
    | cons b rest ih =>
      have f := dCurright_fields st
      have step := dCurright_inv st hc hr hinv
      have tailres := ih (dCurright st) (f.1 ▸ hc) (f.2 ▸ hr) step
      have heq : dStr st (b :: rest) = dStr (dCurright st) rest := rfl
      rw [heq]
      exact ⟨tailres.1.trans f.1, tailres.2.1.trans f.2, tailres.2.2⟩
  | back =>
    have f1 := dCurleft_fields st
    have f2 := dCurleft_fields (dCurleft st)
    have heq : dApply st DrvOp.back = dCurleft (dCurleft st) := rfl
    rw [heq]
    exact ⟨f2.1.trans f1.1, f2.2.trans f1.2,
      dCurleft_inv (dCurleft st) (f1.1 ▸ hc) (f1.2 ▸ hr)⟩

/-- C10: for a driver with `cols ≥ 1` and `1 ≤ rows ≤ 4`, after any sequence
of the driver's cursor and writing operations the linear software cursor
stays inside `[0, cols*rows)`. -/
theorem c10_cursor_in_range (cols rows : Nat) (h1 : 1 ≤ cols) (h2 : 1 ≤ rows)
    (h3 : rows ≤ 4) (ops : List DrvOp) :
    0 ≤ (dRun cols rows ops).it ∧
      (dRun cols rows ops).it < ((cols : Int) * rows) := by
  have _ := h3
  have main : ∀ (l : List DrvOp) (st : DrvState), st.cols = cols → st.rows = rows →
      drvInv st → (l.foldl dApply st).cols = cols ∧ (l.foldl dApply st).rows = rows ∧
        drvInv (l.foldl dApply st) := by
    intro l
    induction l with
    | nil => intro st ha hb hinv; exact ⟨ha, hb, hinv⟩
    | cons op rest ih =>
      intro st ha hb hinv
      have step := dApply_inv st op (by omega) (by omega) hinv
      simp only [List.foldl_cons]
      exact ih (dApply st op) (step.1.trans ha) (step.2.1.trans hb) step.2.2
  have hstart : drvInv (dFresh cols rows) := by
    refine ⟨le_refl 0, ?_⟩
    have : (1 : Int) * 1 ≤ (cols : Int) * rows :=
      mul_le_mul (by exact_mod_cast h1) (by exact_mod_cast h2) (by omega) (by omega)
    show (0 : Int) < (cols : Int) * rows
    omega
  obtain ⟨ha, hb, hc4, hd⟩ := main ops (dFresh cols rows) rfl rfl hstart
  unfold dRun
  refine ⟨hc4, ?_⟩
  rw [ha, hb] at hd
  exact hd

/-- C10 witness: concrete 16x2 run exercising every operation once. -/
theorem c10_cursor_in_range_witness :
    0 ≤ (dRun 16 2 [DrvOp.init, DrvOp.setCursor 15 1, DrvOp.curright,
        DrvOp.strOp [65, 66], DrvOp.up, DrvOp.down, DrvOp.curleft, DrvOp.back,
        DrvOp.gotoxy 3 1, DrvOp.line2, DrvOp.line1, DrvOp.dataIt 7,
        DrvOp.home, DrvOp.clear]).it ∧
      (dRun 16 2 [DrvOp.init, DrvOp.setCursor 15 1, DrvOp.curright,
        DrvOp.strOp [65, 66], DrvOp.up, DrvOp.down, DrvOp.curleft, DrvOp.back,
        DrvOp.gotoxy 3 1, DrvOp.line2, DrvOp.line1, DrvOp.dataIt 7,
        DrvOp.home, DrvOp.clear]).it < ((16 : Int) * 2) :=
  c10_cursor_in_range 16 2 (by decide) (by decide) (by decide) _


/-! ### Claim C9: `write_at` touches only the addressed cells -/

/-- One `write_at(col, row, text)` call. -/
structure WCall where
  col : Int
  row : Int
  text : List Char
deriving Repr, DecidableEq

def runWrites (st : LCDSState) (calls : List WCall) : LCDSState :=
  calls.foldl (fun s c => writeAt s c.col c.row c.text) st

/-- Linear cell `j` belongs to the range a `write_at` call actually writes,
as the claim words it: the call's row must be valid, a negative column
clamps to 0, and the written columns are `[col, min(col+len, cols))` on that
row only (so text never spills onto another row and an out-of-range row
writes no cell at all). -/
def writtenCell (cols rows : Nat) (c : WCall) (j : Nat) : Prop :=
  0 ≤ c.row ∧ c.row < (rows : Int) ∧
    c.row * cols + (if c.col < 0 then 0 else c.col) ≤ (j : Int) ∧
    (j : Int) < c.row * cols +
      min ((if c.col < 0 then 0 else c.col) + c.text.length) cols

instance (cols rows : Nat) (c : WCall) (j : Nat) :
    Decidable (writtenCell cols rows c j) := by
  unfold writtenCell; infer_instance

theorem writeList_length (text : List Char) :
    ∀ (buf : List Char) (start : Nat),
      (writeList buf start text).length = buf.length := by
  induction text with
  | nil => intro buf start; rfl
  | cons c cs ih =>
    intro buf start
    simp only [writeList]
    rw [ih, List.length_set]

theorem writeList_getElem?_outside (text : List Char) :
    ∀ (buf : List Char) (start j : Nat), (j < start ∨ start + text.length ≤ j) →
      (writeList buf start text)[j]? = buf[j]? := by
  induction text with
  | nil => intro buf start j _; rfl
  | cons c cs ih =>
    intro buf start j h
    simp only [writeList]
    rw [ih (buf.set start c) (start + 1) j (by simp only [List.length_cons] at h; omega)]
    have hne : ¬ start = j := by simp only [List.length_cons] at h; omega
    rw [List.getElem?_set]
    simp [hne]

theorem writeAt_fields (st : LCDSState) (col row : Int) (text : List Char) :
    (writeAt st col row text).cols = st.cols ∧
      (writeAt st col row text).rows = st.rows := by
  unfold writeAt
  dsimp only
  split_ifs <;> exact ⟨rfl, rfl⟩

/-- Single-call frame property: any cell outside the written range keeps its
character. -/
theorem writeAt_frame (st : LCDSState) (col row : Int) (text : List Char)
    (j : Nat) (h : ¬ writtenCell st.cols st.rows ⟨col, row, text⟩ j) :
    (writeAt st col row text).buf[j]? = st.buf[j]? := by
  unfold writtenCell at h
  unfold writeAt
  dsimp only
  by_cases h1 : row < 0 ∨ row ≥ (st.rows : Int)
  · rw [if_pos h1]
  · rw [if_neg h1]
    push_neg at h1
    by_cases h2 : (if col < 0 then 0 else col) ≥ (st.cols : Int)
    · rw [if_pos h2]
    · rw [if_neg h2]
      by_cases h3 : text = []
      · rw [if_pos h3]
      · rw [if_neg h3]
        dsimp only
        apply writeList_getElem?_outside
        rw [List.length_take]
        have hc0 : (0 : Int) ≤ (if col < 0 then 0 else col) := by split_ifs <;> omega
        have hP : (0 : Int) ≤ row * (st.cols : Int) :=
          mul_nonneg h1.1 (by exact_mod_cast Nat.zero_le st.cols)
        push_neg at h2
        simp only [not_and, not_lt, not_le] at h
        omega

/-- C9: over any sequence of `write_at` calls, every buffer cell outside the
ranges the calls actually write (per call: columns `[col, min(col+len,
cols))` of the addressed row, with negative columns clamped to 0, invalid
rows writing nothing, text never spilling onto another row) keeps its
previous character. -/
theorem c9_write_at_frame (st : LCDSState) (calls : List WCall) (j : Nat)
    (h : ∀ c ∈ calls, ¬ writtenCell st.cols st.rows c j) :
    (runWrites st calls).buf[j]? = st.buf[j]? := by
  induction calls generalizing st with
  | nil => rfl
  | cons c cs ih =>
    have hfields := writeAt_fields st c.col c.row c.text
    have hstep : (writeAt st c.col c.row c.text).buf[j]? = st.buf[j]? :=
      writeAt_frame st c.col c.row c.text j (h c (List.mem_cons_self c cs))
    have htail : (runWrites (writeAt st c.col c.row c.text) cs).buf[j]?
        = (writeAt st c.col c.row c.text).buf[j]? := by
      apply ih
      intro c2 hc2
      rw [hfields.1, hfields.2]
      exact h c2 (List.mem_cons_of_mem c hc2)
    have hrun : runWrites st (c :: cs) = runWrites (writeAt st c.col c.row c.text) cs := rfl
    rw [hrun, htail, hstep]

/-- C9 witness: two concrete writes on a 4x2 screen and a cell on the other
row. -/
theorem c9_write_at_frame_witness :
    (runWrites (initLCDS 4 2 true)
        [⟨1, 0, ['X', 'Y']⟩, ⟨-2, 1, ['Z']⟩]).buf[3]?
      = (initLCDS 4 2 true).buf[3]? :=
  c9_write_at_frame (initLCDS 4 2 true) [⟨1, 0, ['X', 'Y']⟩, ⟨-2, 1, ['Z']⟩] 3
    (by decide)


/-! ### Claim C3: diff refresh makes shadow equal buffer and is idempotent -/

theorem flushStep_shadow_cases (cols : Nat) (useDyn : Bool) (a : FlushAcc)
    (n : Nat) (c : Char) (hn : n < a.shadow.length) :
    (flushStep cols useDyn a (n, c)).shadow.length = a.shadow.length ∧
    (flushStep cols useDyn a (n, c)).shadow[n]? = some c ∧
    ∀ j : Nat, j ≠ n → (flushStep cols useDyn a (n, c)).shadow[j]? = a.shadow[j]? := by
  unfold flushStep
  dsimp only
  by_cases hskip : (a.shadow.getD n (Char.ofNat 0) == c) = true
  · rw [if_pos hskip]
    refine ⟨rfl, ?_, fun j _ => rfl⟩
    have hc : a.shadow.getD n (Char.ofNat 0) = c := beq_iff_eq.mp hskip
    rw [List.getD_eq_getElem?_getD, List.getElem?_eq_getElem hn] at hc
    rw [List.getElem?_eq_getElem hn]
    simpa using hc
  · rw [if_neg hskip]
    refine ⟨by simp, ?_, ?_⟩
    · rw [List.getElem?_set]
      simp [hn]
    · intro j hj
      rw [List.getElem?_set, if_neg (Ne.symm hj)]

theorem flushFold_shadow (cols : Nat) (useDyn : Bool) (l : List Char) :
    ∀ (n : Nat) (a : FlushAcc), n + l.length ≤ a.shadow.length →
      (((List.enumFrom n l).foldl (flushStep cols useDyn) a).shadow.length
          = a.shadow.length) ∧
      ∀ j : Nat,
        ((List.enumFrom n l).foldl (flushStep cols useDyn) a).shadow[j]?
          = if n ≤ j ∧ j < n + l.length then l[(j - n)]? else a.shadow[j]? := by
  induction l with
  | nil =>
    intro n a _
    refine ⟨rfl, fun j => ?_⟩
    rw [if_neg (by simp only [List.length_nil]; omega)]
    rfl
  | cons c cs ih =>
    intro n a hlen
    have hn : n < a.shadow.length := by
      simp only [List.length_cons] at hlen; omega
    obtain ⟨hl1, hl2, hl3⟩ := flushStep_shadow_cases cols useDyn a n c hn
    have hrec := ih (n + 1) (flushStep cols useDyn a (n, c))
      (by simp only [List.length_cons] at hlen; omega)
    refine ⟨?_, ?_⟩
    · show ((List.enumFrom (n+1) cs).foldl (flushStep cols useDyn)
          (flushStep cols useDyn a (n, c))).shadow.length = a.shadow.length
      rw [hrec.1, hl1]
    · intro j
      show ((List.enumFrom (n+1) cs).foldl (flushStep cols useDyn)
          (flushStep cols useDyn a (n, c))).shadow[j]? = _
      rw [hrec.2 j]
      by_cases hj1 : n + 1 ≤ j ∧ j < n + 1 + cs.length
      · rw [if_pos hj1, if_pos (by simp only [List.length_cons]; omega)]
        have : j - n = (j - (n + 1)) + 1 := by omega
        rw [this, List.getElem?_cons_succ]
      · rw [if_neg hj1]
        by_cases hj2 : j = n
        · subst hj2
          rw [hl2, if_pos (by simp only [List.length_cons]; omega)]
          have : j - j = 0 := by omega
          rw [this, List.getElem?_cons_zero]
        · rw [hl3 j hj2, if_neg (by simp only [List.length_cons]; omega)]

theorem flushFold_skip_all (cols : Nat) (useDyn : Bool) (l : List Char) :
    ∀ (n : Nat) (a : FlushAcc),
      (∀ k : Nat, k < l.length →
        a.shadow.getD (n + k) (Char.ofNat 0) = l.getD k (Char.ofNat 0)) →
      (List.enumFrom n l).foldl (flushStep cols useDyn) a = a := by
  induction l with
  | nil => intro n a _; rfl
  | cons c cs ih =>
    intro n a hmatch
    have hhead : a.shadow.getD n (Char.ofNat 0) = c := by
      have := hmatch 0 (by simp)
      simpa using this
    have hstep : flushStep cols useDyn a (n, c) = a := by
      unfold flushStep
      dsimp only
      rw [if_pos (beq_iff_eq.mpr hhead)]
    show (List.enumFrom (n+1) cs).foldl (flushStep cols useDyn)
        (flushStep cols useDyn a (n, c)) = a
    rw [hstep]
    apply ih
    intro k hk
    have := hmatch (k + 1) (by simp only [List.length_cons]; omega)
    have harith : n + 1 + k = n + (k + 1) := by omega
    rw [harith, this]
    simp

/-- C3: after one `flush` the shadow exactly equals the buffer, and a second
consecutive `flush` with no intervening writes leaves the state unchanged
and issues zero driver calls (in particular no `set_cursor` and no
`write_char`). -/
theorem c3_flush_idempotent (st : LCDSState) (h : st.shadow.length = st.buf.length) :
    (flush st).1.shadow = (flush st).1.buf ∧
    (flush ((flush st).1)).1 = (flush st).1 ∧
    (flush ((flush st).1)).2 = [] := by
  have hbuf : (flush st).1.buf = st.buf := rfl
  have hshadow : (flush st).1.shadow = st.buf := by
    have hmain := flushFold_shadow st.cols st.useDyn st.buf 0
      ⟨st.shadow, st.dyn, -10000, []⟩ (by rw [h]; omega)
    have hlen2 : (flush st).1.shadow.length = st.buf.length := by
      show ((List.enumFrom 0 st.buf).foldl (flushStep st.cols st.useDyn)
        ⟨st.shadow, st.dyn, -10000, []⟩).shadow.length = st.buf.length
      rw [hmain.1]
      exact h
    apply List.ext_getElem?
    intro j
    show ((List.enumFrom 0 st.buf).foldl (flushStep st.cols st.useDyn)
      ⟨st.shadow, st.dyn, -10000, []⟩).shadow[j]? = st.buf[j]?
    rw [hmain.2 j]
    by_cases hj : j < st.buf.length
    · rw [if_pos (by omega)]
      simp
    · rw [if_neg (by omega)]
      have h1 : st.shadow[j]? = none := by
        rw [List.getElem?_eq_none]
        omega
      have h2 : st.buf[j]? = none := by
        rw [List.getElem?_eq_none]
        omega
      rw [h2]
      exact h1
  have hsecond : (List.enumFrom 0 ((flush st).1.buf)).foldl
      (flushStep (flush st).1.cols (flush st).1.useDyn)
      ⟨(flush st).1.shadow, (flush st).1.dyn, -10000, []⟩
      = ⟨(flush st).1.shadow, (flush st).1.dyn, -10000, []⟩ := by
    apply flushFold_skip_all
    intro k hk
    rw [hshadow, hbuf]
    simp
  refine ⟨hshadow.trans hbuf.symm, ?_, ?_⟩
  · show { (flush st).1 with
        shadow := ((List.enumFrom 0 ((flush st).1.buf)).foldl
          (flushStep (flush st).1.cols (flush st).1.useDyn)
          ⟨(flush st).1.shadow, (flush st).1.dyn, -10000, []⟩).shadow,
        dyn := ((List.enumFrom 0 ((flush st).1.buf)).foldl
          (flushStep (flush st).1.cols (flush st).1.useDyn)
          ⟨(flush st).1.shadow, (flush st).1.dyn, -10000, []⟩).dyn } = (flush st).1
    rw [hsecond]
  · show ((List.enumFrom 0 ((flush st).1.buf)).foldl
        (flushStep (flush st).1.cols (flush st).1.useDyn)
        ⟨(flush st).1.shadow, (flush st).1.dyn, -10000, []⟩).events = []
    rw [hsecond]

/-- C3 witness: a concrete 4x2 screen with two written cells. -/
theorem c3_flush_idempotent_witness :
    (flush (writeAt (initLCDS 4 2 true) 0 0 ['a', 'b'])).1.shadow
        = (flush (writeAt (initLCDS 4 2 true) 0 0 ['a', 'b'])).1.buf ∧
    (flush ((flush (writeAt (initLCDS 4 2 true) 0 0 ['a', 'b'])).1)).1
        = (flush (writeAt (initLCDS 4 2 true) 0 0 ['a', 'b'])).1 ∧
    (flush ((flush (writeAt (initLCDS 4 2 true) 0 0 ['a', 'b'])).1)).2 = [] :=
  c3_flush_idempotent (writeAt (initLCDS 4 2 true) 0 0 ['a', 'b']) (by decide)


/-! ### Association-list lemmas for the glyph-cache dictionaries -/

theorem dictGet_nil (c : Char) : dictGet [] c = none := rfl

theorem dictGet_cons (p : Char × Nat) (d : List (Char × Nat)) (c : Char) :
    dictGet (p :: d) c = if p.1 == c then some p.2 else dictGet d c := by
  cases h : (p.1 == c) <;> simp [dictGet, List.find?_cons, h]

theorem dictGet_append (d1 d2 : List (Char × Nat)) (c : Char) :
    dictGet (d1 ++ d2) c =
      match dictGet d1 c with
      | some v => some v
      | none => dictGet d2 c := by
  induction d1 with
  | nil => rfl
  | cons p d ih =>
    rw [List.cons_append, dictGet_cons, dictGet_cons]
    by_cases h : (p.1 == c) = true
    · rw [if_pos h, if_pos h]
    · rw [if_neg h, if_neg h, ih]

theorem dictGet_pop (d : List (Char × Nat)) (old c : Char) :
    dictGet (dictPop d old) c = if c = old then none else dictGet d c := by
  induction d with
  | nil => simp [dictPop, dictGet]
  | cons p d ih =>
    rcases eq_or_ne p.1 old with hpo | hpo <;>
      rcases eq_or_ne p.1 c with hpc | hpc <;>
      rcases eq_or_ne c old with hco | hco <;>
      simp_all [dictPop, dictGet_cons, List.filter_cons]

theorem dictGet_eq_none_iff (d : List (Char × Nat)) (c : Char) :
    dictGet d c = none ↔ c ∉ d.map Prod.fst := by
  induction d with
  | nil => simp [dictGet]
  | cons p d ih =>
    rw [dictGet_cons, List.map_cons, List.mem_cons]
    by_cases hpc : p.1 = c
    · simp [hpc]
    · have hb : (p.1 == c) = false := by simpa using hpc
      rw [hb]
      simp only [Bool.false_eq_true, if_false, ih]
      constructor
      · intro hn hor
        rcases hor with hor | hor
        · exact hpc hor.symm
        · exact hn hor
      · intro hn hmem
        exact hn (Or.inr hmem)

theorem dictPop_of_get_none (d : List (Char × Nat)) (c : Char)
    (h : dictGet d c = none) : dictPop d c = d := by
  induction d with
  | nil => rfl
  | cons p d ih =>
    rw [dictGet_cons] at h
    by_cases hpc : (p.1 == c) = true
    · rw [if_pos hpc] at h
      exact absurd h (by simp)
    · rw [if_neg hpc] at h
      unfold dictPop at ih ⊢
      rw [List.filter_cons]
      simp only [hpc, Bool.not_false, if_true]
      rw [ih h]

theorem dictSet_of_get_none (d : List (Char × Nat)) (c : Char) (v : Nat)
    (h : dictGet d c = none) : dictSet d c v = d ++ [(c, v)] := by
  unfold dictSet
  cases hfind : d.find? (fun p => p.1 == c) with
  | none => simp
  | some p =>
    unfold dictGet at h
    rw [hfind] at h
    simp at h

theorem dictPop_sublist (d : List (Char × Nat)) (c : Char) :
    (dictPop d c).Sublist d :=
  List.filter_sublist d

theorem dictPop_length (d : List (Char × Nat)) (c : Char)
    (hnd : (d.map Prod.fst).Nodup) (hmem : ¬ dictGet d c = none) :
    (dictPop d c).length + 1 = d.length := by
  induction d with
  | nil => simp [dictGet] at hmem
  | cons p d ih =>
    rw [List.map_cons, List.nodup_cons] at hnd
    rw [dictGet_cons] at hmem
    unfold dictPop
    rw [List.filter_cons]
    by_cases hpc : (p.1 == c) = true
    · have hpc' : p.1 = c := beq_iff_eq.mp hpc
      simp only [hpc, Bool.not_true, Bool.false_eq_true, if_false]
      have hrest : dictGet d c = none := by
        rw [dictGet_eq_none_iff]
        rw [← hpc']
        exact hnd.1
      have : dictPop d c = d := dictPop_of_get_none d c hrest
      unfold dictPop at this
      rw [this, List.length_cons]
    · simp only [hpc, Bool.not_false, if_true]
      rw [if_neg hpc] at hmem
      have := ih hnd.2 hmem
      unfold dictPop at this
      rw [List.length_cons, List.length_cons, ← this]

/-! ### Canonical-dictionary lemmas -/

theorem canonDictAux_length (cs : List Char) :
    ∀ k : Nat, (canonDictAux k cs).length = cs.length := by
  induction cs with
  | nil => intro k; rfl
  | cons c rest ih =>
    intro k
    simp only [canonDictAux, List.length_cons, ih]

theorem canonDictAux_get_not_mem (cs : List Char) (c : Char) (h : c ∉ cs) :
    ∀ k : Nat, dictGet (canonDictAux k cs) c = none := by
  induction cs with
  | nil => intro k; rfl
  | cons c0 rest ih =>
    intro k
    rw [List.mem_cons] at h
    push_neg at h
    simp only [canonDictAux]
    rw [dictGet_cons, if_neg (by simpa using fun hh : c0 = c => h.1 hh.symm)]
    exact ih h.2 (k + 1)

theorem canonDictAux_get_of_getD (cs : List Char) (hnd : cs.Nodup) :
    ∀ (k i : Nat), i < cs.length →
      dictGet (canonDictAux k cs) (cs.getD i (Char.ofNat 0)) = some (k + i) := by
  induction cs with
  | nil => intro k i h; simp at h
  | cons c0 rest ih =>
    intro k i h
    rw [List.nodup_cons] at hnd
    cases i with
    | zero =>
      simp only [canonDictAux, List.getD_cons_zero]
      rw [dictGet_cons, if_pos (by simp)]
      simp
    | succ n =>
      simp only [canonDictAux, List.getD_cons_succ]
      have hmem : rest.getD n (Char.ofNat 0) ∈ rest := by
        have hn : n < rest.length := by simp only [List.length_cons] at h; omega
        rw [List.getD_eq_getElem?_getD, List.getElem?_eq_getElem hn]
        exact List.getElem_mem hn
      rw [dictGet_cons, if_neg (by
        simp only [beq_iff_eq]
        intro hc
        exact hnd.1 (hc ▸ hmem))]
      have := ih hnd.2 (k + 1) n (by simp only [List.length_cons] at h; omega)
      rw [this]
      congr 1
      omega

theorem canonDictAux_get_some (cs : List Char) :
    ∀ (k : Nat) (c : Char) (s : Nat),
      dictGet (canonDictAux k cs) c = some s →
      ∃ i : Nat, i < cs.length ∧ cs.getD i (Char.ofNat 0) = c ∧ s = k + i := by
  induction cs with
  | nil =>
    intro k c s h
    rw [show dictGet (canonDictAux k []) c = none from rfl] at h
    cases h
  | cons c0 rest ih =>
    intro k c s h
    simp only [canonDictAux] at h
    rw [dictGet_cons] at h
    by_cases hpc : (c0 == c) = true
    · rw [if_pos hpc] at h
      refine ⟨0, by simp, ?_, ?_⟩
      · simpa using beq_iff_eq.mp hpc
      · simpa using h.symm
    · rw [if_neg hpc] at h
      obtain ⟨i, hi, hgd, hs⟩ := ih (k + 1) c s h
      exact ⟨i + 1, by simp only [List.length_cons]; omega,
        by simp only [List.getD_cons_succ]; exact hgd, by omega⟩

theorem canonDictAux_pop_not_mem (cs : List Char) (c : Char) (h : c ∉ cs) :
    ∀ k : Nat, dictPop (canonDictAux k cs) c = canonDictAux k cs := by
  intro k
  exact dictPop_of_get_none _ _ (canonDictAux_get_not_mem cs c h k)

theorem canonDictAux_keys_nodup (cs : List Char) (hnd : cs.Nodup) :
    ∀ k : Nat, ((canonDictAux k cs).map Prod.fst).Nodup := by
  induction cs with
  | nil => intro k; exact List.nodup_nil
  | cons c0 rest ih =>
    intro k
    rw [List.nodup_cons] at hnd
    simp only [canonDictAux, List.map_cons, List.nodup_cons]
    constructor
    · have hnone := canonDictAux_get_not_mem rest c0 hnd.1 (k + 1)
      exact (dictGet_eq_none_iff _ _).mp hnone
    · exact ih hnd.2 (k + 1)


/-! ### Bitmask facts for the 8-bit used-slot mask -/

theorem find?_free_slot_of_filled (k : Nat) (h : k < 8) :
    (List.range 8).find? (fun slot => (2 ^ k - 1) &&& (1 <<< slot) == 0) = some k := by
  interval_cases k <;> decide

theorem mask_full_iff (k : Nat) (h : k ≤ 8) : (2 ^ k - 1 = 255) ↔ k = 8 := by
  interval_cases k <;> decide

theorem or_pow_filled (k : Nat) (h : k < 8) :
    (2 ^ k - 1) ||| (1 <<< k) = 2 ^ (k + 1) - 1 := by
  interval_cases k <;> decide

theorem clearBit_255 (r : Nat) (h : r < 8) : clearBit 255 r = 255 - 2 ^ r := by
  interval_cases r <;> decide

theorem find?_free_slot_255 :
    (List.range 8).find? (fun slot => 255 &&& (1 <<< slot) == 0) = none := by decide

theorem find?_free_slot_sub (b : Nat) (h : b < 8) :
    (List.range 8).find? (fun slot => (255 - 2 ^ b) &&& (1 <<< slot) == 0) = some b := by
  interval_cases b <;> decide

theorem or_sub_pow (b : Nat) (h : b < 8) : (255 - 2 ^ b) ||| (1 <<< b) = 255 := by
  interval_cases b <;> decide

theorem sub_pow_ne_255 (b : Nat) (h : b < 8) : ¬ (255 - 2 ^ b = 255) := by
  interval_cases b <;> decide

theorem maskCount_two_pow_sub_one (k : Nat) (h : k ≤ 8) :
    maskCount (2 ^ k - 1) = k := by
  interval_cases k <;> decide

theorem maskCount_255_sub (b : Nat) (h : b < 8) : maskCount (255 - 2 ^ b) = 7 := by
  interval_cases b <;> decide

theorem testBit_255_sub (b s : Nat) (hb : b < 8) (hs : s < 8) :
    (255 - 2 ^ b).testBit s = !(decide (s = b)) := by
  interval_cases b <;> interval_cases s <;> decide

theorem testBit_255 (s : Nat) (hs : s < 8) : Nat.testBit 255 s = true := by
  interval_cases s <;> decide

/-- Successful lookup of a free slot means the mask bit is clear. -/
theorem find?_free_slot_spec (m slot : Nat)
    (h : (List.range 8).find? (fun s => m &&& (1 <<< s) == 0) = some slot) :
    slot < 8 ∧ m.testBit slot = false := by
  have hmem := List.mem_of_find?_eq_some h
  have hpred := List.find?_some h
  rw [List.mem_range] at hmem
  refine ⟨hmem, ?_⟩
  have hzero : m &&& (1 <<< slot) = 0 := by
    simpa using hpred
  rw [Nat.shiftLeft_eq, one_mul] at hzero
  rw [Nat.and_two_pow] at hzero
  by_contra hbit
  rw [Bool.not_eq_false] at hbit
  rw [hbit] at hzero
  simp at hzero

/-- Flipping one position of a filter predicate from false to true adds
exactly one element. -/
theorem filter_length_flip_one {f f' : Nat → Bool} (slot : Nat)
    (hne : ∀ i, i ≠ slot → f' i = f i) (ht : f' slot = true) (hf : f slot = false) :
    ∀ l : List Nat, l.Nodup → slot ∈ l →
      (l.filter f').length = (l.filter f).length + 1 := by
  intro l
  induction l with
  | nil => intro _ hmem; cases hmem
  | cons a rest ih =>
    intro hnd hmem
    rw [List.nodup_cons] at hnd
    rcases eq_or_ne a slot with rfl | hna
    · rw [List.filter_cons, List.filter_cons, ht, hf]
      simp only [if_true, Bool.false_eq_true, if_false, List.length_cons]
      have : rest.filter f' = rest.filter f := by
        apply List.filter_congr
        intro x hx
        exact hne x (fun hxs => hnd.1 (hxs ▸ hx))
      rw [this]
    · have hmem' : slot ∈ rest := by
        rcases List.mem_cons.mp hmem with h | h
        · exact absurd h.symm hna
        · exact h
      rw [List.filter_cons, List.filter_cons, hne a hna]
      cases hfa : f a
      · simp only [Bool.false_eq_true, if_false]
        exact ih hnd.2 hmem'
      · simp only [if_true, List.length_cons]
        rw [ih hnd.2 hmem']

theorem maskCount_or_free (m slot : Nat) (hs : slot < 8)
    (hbit : m.testBit slot = false) :
    maskCount (m ||| (1 <<< slot)) = maskCount m + 1 := by
  unfold maskCount
  apply filter_length_flip_one slot
  · intro i hi
    rw [Nat.testBit_or, Nat.shiftLeft_eq, one_mul, Nat.testBit_two_pow]
    simp [Ne.symm hi]
  · rw [Nat.testBit_or, Nat.shiftLeft_eq, one_mul, Nat.testBit_two_pow]
    simp
  · exact hbit
  · exact List.nodup_range 8
  · exact List.mem_range.mpr hs

/-! ### Slot-array (`_dyn_slot_to_char`) helper lemmas -/

theorem getD_set_ne {α : Type} [Inhabited α] (l : List (Option α)) (i j : Nat)
    (v : Option α) (h : i ≠ j) : (l.set i v).getD j none = l.getD j none := by
  rw [List.getD_eq_getElem?_getD, List.getD_eq_getElem?_getD,
    List.getElem?_set, if_neg h]

theorem getD_set_self {α : Type} (l : List (Option α)) (i : Nat) (v : Option α)
    (h : i < l.length) : (l.set i v).getD i none = v := by
  rw [List.getD_eq_getElem?_getD, List.getElem?_set]
  simp [h]

theorem canonSlots_getD_lt (cs : List Char) (i : Nat) (h : i < cs.length) :
    (cs.map some ++ List.replicate (8 - cs.length) none).getD i none
      = some (cs.getD i (Char.ofNat 0)) := by
  rw [List.getD_eq_getElem?_getD, List.getElem?_append,
    if_pos (by simpa using h), List.getElem?_map,
    List.getElem?_eq_getElem h]
  simp [List.getD_eq_getElem?_getD, List.getElem?_eq_getElem h]

theorem canonSlots_getD_ge (cs : List Char) (i : Nat) (h : cs.length ≤ i) :
    (cs.map some ++ List.replicate (8 - cs.length) none).getD i none = none := by
  rw [List.getD_eq_getElem?_getD, List.getElem?_append,
    if_neg (by simp; omega)]
  rcases lt_or_ge (i - (cs.map some).length) (8 - cs.length) with hlt | hge
  · rw [List.getElem?_replicate, if_pos hlt]
    rfl
  · rw [List.getElem?_eq_none (by simpa using hge)]
    rfl

theorem canonSlots_set_len (cs : List Char) (c : Char) (h : cs.length < 8) :
    (cs.map some ++ List.replicate (8 - cs.length) none).set cs.length (some c)
      = (cs ++ [c]).map some ++ List.replicate (8 - (cs.length + 1)) none := by
  have hrep : List.replicate (8 - cs.length) (none : Option Char)
      = none :: List.replicate (8 - (cs.length + 1)) none := by
    rw [show 8 - cs.length = (8 - (cs.length + 1)) + 1 by omega, List.replicate_succ]
  rw [hrep, List.set_append_right _ _ (by simp),
    show cs.length - (cs.map some).length = 0 by simp]
  rw [List.map_append]
  simp

theorem canonSlots_length (cs : List Char) (h : cs.length ≤ 8) :
    (cs.map some ++ List.replicate (8 - cs.length) none).length = 8 := by
  simp
  omega

/-! ### More canonical-dictionary structure -/

theorem canonDictAux_append_singleton (cs : List Char) (c : Char) :
    ∀ k : Nat, canonDictAux k (cs ++ [c]) = canonDictAux k cs ++ [(c, k + cs.length)] := by
  induction cs with
  | nil => intro k; simp [canonDictAux]
  | cons c0 rest ih =>
    intro k
    show (c0, k) :: canonDictAux (k + 1) (rest ++ [c])
        = ((c0, k) :: canonDictAux (k + 1) rest) ++ [(c, k + (rest.length + 1))]
    rw [ih (k + 1), List.cons_append]
    have harith : (k + 1) + rest.length = k + (rest.length + 1) := by omega
    rw [harith]

theorem canonDictAux_keys (cs : List Char) :
    ∀ k : Nat, (canonDictAux k cs).map Prod.fst = cs := by
  induction cs with
  | nil => intro k; rfl
  | cons c0 rest ih =>
    intro k
    simp only [canonDictAux, List.map_cons, ih (k + 1)]


/-! ### Cache transitions on canonical states -/

theorem age_canon (cs : List Char) (aged : Bool) (hlen : cs.length ≤ 8) :
    ageDynamicMaskIfFull (canonState cs aged)
      = canonState cs (aged || decide (cs.length = 8)) := by
  cases aged with
  | true =>
    show ageDynamicMaskIfFull (canonState cs true) = canonState cs true
    unfold ageDynamicMaskIfFull
    rw [if_neg (by show ¬ (canonState cs true).usedMask = 255; simp [canonState])]
  | false =>
    by_cases h8 : cs.length = 8
    · rw [show (false || decide (cs.length = 8)) = true by simp [h8]]
      unfold ageDynamicMaskIfFull
      dsimp only
      rw [if_pos (by
        rw [show (canonState cs false).usedMask = 2 ^ cs.length - 1 from rfl, h8]
        decide)]
      have hm : clearBit (canonState cs false).usedMask
          (canonState cs false).rotateIndex = 254 := by
        rw [show (canonState cs false).usedMask = 2 ^ cs.length - 1 from rfl, h8,
          show (canonState cs false).rotateIndex = 0 from rfl]
        decide
      have hrot : ((canonState cs false).rotateIndex + 1) % 8 = 1 := by
        rw [show (canonState cs false).rotateIndex = 0 from rfl]
      rw [hm, hrot]
      rfl
    · rw [show (false || decide (cs.length = 8)) = false by simp [h8]]
      unfold ageDynamicMaskIfFull
      rw [if_neg (by
        rw [show (canonState cs false).usedMask = 2 ^ cs.length - 1 from rfl,
          mask_full_iff cs.length hlen]
        exact h8)]

theorem alloc_canon_hit (cs : List Char) (aged : Bool) (ch : Char) (s : Nat)
    (h : dictGet (canonDictAux 0 cs) ch = some s) :
    allocDynamicSlot (canonState cs aged) ch
      = (some (s, false), canonState cs aged, []) := by
  unfold allocDynamicSlot
  rw [show (canonState cs aged).charToSlot = canonDictAux 0 cs from rfl, h]

theorem alloc_canon_new (cs : List Char) (ch : Char) (entry : List Nat × Char)
    (hlen : cs.length < 8) (hch : ch ∉ cs) (hcat : dynLookup ch = some entry) :
    allocDynamicSlot (canonState cs false) ch
      = (some (cs.length, true), canonState (cs ++ [ch]) false,
         [LcdEvent.createChar cs.length entry.1]) := by
  unfold allocDynamicSlot
  rw [show (canonState cs false).charToSlot = canonDictAux 0 cs from rfl,
    canonDictAux_get_not_mem cs ch hch 0,
    show (canonState cs false).usedMask = 2 ^ cs.length - 1 from rfl,
    find?_free_slot_of_filled cs.length hlen]
  dsimp only
  rw [show (canonState cs false).slotToChar
      = cs.map some ++ List.replicate (8 - cs.length) none from rfl,
    canonSlots_getD_ge cs cs.length (le_refl _)]
  dsimp only
  rw [show (canonState cs false).charToSlot = canonDictAux 0 cs from rfl,
    dictSet_of_get_none _ _ _ (canonDictAux_get_not_mem cs ch hch 0),
    hcat]
  unfold canonState
  rw [canonDictAux_append_singleton cs ch 0, Nat.zero_add,
    canonSlots_set_len cs ch hlen]
  dsimp only
  norm_num
  rw [or_pow_filled cs.length hlen]

/-- Cache state right after the ninth distinct catalog character `c` has
evicted the first-inserted character `c0` from slot 0. -/
def postNinth (rest : List Char) (c : Char) : DynState :=
  { charToSlot := canonDictAux 1 rest ++ [(c, 0)],
    slotToChar := some c :: rest.map some,
    usedMask := 255,
    rotateIndex := 1 }

theorem find?_free_slot_254 :
    (List.range 8).find? (fun slot => 254 &&& (1 <<< slot) == 0) = some 0 := by
  decide

theorem alloc_canon_ninth (c0 : Char) (rest : List Char) (ch : Char)
    (entry : List Nat × Char) (hlen : rest.length = 7)
    (hnd : (c0 :: rest).Nodup) (hch : ch ∉ (c0 :: rest))
    (hcat : dynLookup ch = some entry) :
    allocDynamicSlot (canonState (c0 :: rest) true) ch
      = (some (0, true), postNinth rest ch, [LcdEvent.createChar 0 entry.1]) := by
  rw [List.nodup_cons] at hnd
  rw [List.mem_cons] at hch
  push_neg at hch
  have hslots : (canonState (c0 :: rest) true).slotToChar
      = some c0 :: rest.map some := by
    show (c0 :: rest).map some ++ List.replicate (8 - (c0 :: rest).length) none
        = some c0 :: rest.map some
    rw [List.length_cons, hlen]
    norm_num
  have hdict : (canonState (c0 :: rest) true).charToSlot
      = (c0, 0) :: canonDictAux 1 rest := rfl
  unfold allocDynamicSlot
  rw [hdict]
  rw [show dictGet ((c0, 0) :: canonDictAux 1 rest) ch = none by
    rw [dictGet_cons, if_neg (by simpa using fun hh : c0 = ch => hch.1 hh.symm)]
    exact canonDictAux_get_not_mem rest ch hch.2 1]
  rw [show (canonState (c0 :: rest) true).usedMask = 254 from rfl,
    find?_free_slot_254]
  dsimp only
  rw [hslots]
  rw [show (some c0 :: rest.map some).getD 0 none = some c0 from rfl]
  dsimp only
  rw [show dictPop ((c0, 0) :: canonDictAux 1 rest) c0 = canonDictAux 1 rest by
    unfold dictPop
    rw [List.filter_cons]
    simp only [beq_self_eq_true, Bool.not_true, Bool.false_eq_true, if_false]
    have := canonDictAux_pop_not_mem rest c0 hnd.1 1
    unfold dictPop at this
    rw [this]]
  rw [dictSet_of_get_none _ _ _ (canonDictAux_get_not_mem rest ch hch.2 1), hcat]
  unfold postNinth
  norm_num
  exact ⟨rfl, rfl⟩

theorem cell_canon_skip (useDyn : Bool) (cs : List Char) (aged : Bool) (ch : Char)
    (hlen : cs.length ≤ 8) (h : (if useDyn then dynLookup ch else none) = none) :
    cellCache useDyn (canonState cs aged) ch
      = ⟨charCode ch, false, canonState cs (aged || decide (cs.length = 8)), []⟩ := by
  unfold cellCache encodeForLcd
  rw [age_canon cs aged hlen, h]

theorem cell_canon_hit (cs : List Char) (aged : Bool) (ch : Char) (s : Nat)
    (entry : List Nat × Char) (hlen : cs.length ≤ 8)
    (hget : dictGet (canonDictAux 0 cs) ch = some s)
    (hcat : dynLookup ch = some entry) :
    cellCache true (canonState cs aged) ch
      = ⟨s, false, canonState cs (aged || decide (cs.length = 8)), []⟩ := by
  unfold cellCache encodeForLcd
  rw [age_canon cs aged hlen]
  rw [show (if true then dynLookup ch else none) = dynLookup ch from rfl, hcat]
  rw [alloc_canon_hit cs _ ch s hget]

theorem cell_canon_new (cs : List Char) (ch : Char) (entry : List Nat × Char)
    (hlen : cs.length < 8) (hch : ch ∉ cs) (hcat : dynLookup ch = some entry) :
    cellCache true (canonState cs false) ch
      = ⟨cs.length, true, canonState (cs ++ [ch]) false,
         [LcdEvent.createChar cs.length entry.1]⟩ := by
  unfold cellCache encodeForLcd
  rw [age_canon cs false (le_of_lt hlen)]
  rw [show (false || decide (cs.length = 8)) = false by
    simp only [Bool.false_or, decide_eq_false_iff_not]
    omega]
  rw [show (if true then dynLookup ch else none) = dynLookup ch from rfl, hcat]
  rw [alloc_canon_new cs ch entry hlen hch hcat]

theorem cell_canon_ninth (c0 : Char) (rest : List Char) (ch : Char) (aged : Bool)
    (entry : List Nat × Char) (hlen : rest.length = 7)
    (hnd : (c0 :: rest).Nodup) (hch : ch ∉ (c0 :: rest))
    (hcat : dynLookup ch = some entry) :
    cellCache true (canonState (c0 :: rest) aged) ch
      = ⟨0, true, postNinth rest ch, [LcdEvent.createChar 0 entry.1]⟩ := by
  unfold cellCache encodeForLcd
  rw [age_canon (c0 :: rest) aged (by simp [hlen])]
  rw [show (aged || decide ((c0 :: rest).length = 8)) = true by
    simp [hlen]]
  rw [show (if true then dynLookup ch else none) = dynLookup ch from rfl, hcat]
  rw [alloc_canon_ninth c0 rest ch entry hlen hnd hch hcat]


/-! ### The seen-characters abstraction characterizes reachable cache states -/

theorem seenSt_append_char (l : List Char) (c : Char) :
    seenSt (l ++ [c]) = seenStep (seenSt l) c := by
  unfold seenSt
  rw [List.foldl_append]
  rfl

theorem runChars_append_char (useDyn : Bool) (d : DynState) (l : List Char)
    (c : Char) :
    runChars useDyn d (l ++ [c]) = (cellCache useDyn (runChars useDyn d l) c).dyn := by
  unfold runChars
  rw [List.foldl_append]
  rfl

theorem seenStep_fst_extends (p : List Char × Bool) (c : Char) :
    ∃ t, p.1 ++ t = (seenStep p c).1 := by
  unfold seenStep
  dsimp only
  split_ifs with h
  · exact ⟨[c], rfl⟩
  · exact ⟨[], List.append_nil _⟩

theorem foldl_seenStep_extends (r : List Char) :
    ∀ p : List Char × Bool, ∃ t, p.1 ++ t = (r.foldl seenStep p).1 := by
  induction r with
  | nil => intro p; exact ⟨[], List.append_nil _⟩
  | cons c rest ih =>
    intro p
    obtain ⟨t1, h1⟩ := seenStep_fst_extends p c
    obtain ⟨t2, h2⟩ := ih (seenStep p c)
    refine ⟨t1 ++ t2, ?_⟩
    show p.1 ++ (t1 ++ t2) = (rest.foldl seenStep (seenStep p c)).1
    rw [← List.append_assoc, h1, h2]

theorem catChars_take_prefix (l : List Char) (i : Nat) :
    ∃ t, catChars (l.take i) ++ t = catChars l := by
  have hout : seenSt l = (l.drop i).foldl seenStep (seenSt (l.take i)) := by
    conv_lhs => rw [show l = l.take i ++ l.drop i from (List.take_append_drop i l).symm]
    unfold seenSt
    rw [List.foldl_append]
  unfold catChars
  rw [hout]
  exact foldl_seenStep_extends (l.drop i) (seenSt (l.take i))

/-- Invariant of the seen-characters fold: the list is duplicate-free, all
its members are catalog characters, and the aged flag implies the mask once
filled (at least 8 distinct catalog characters seen). -/
def seenInv (p : List Char × Bool) : Prop :=
  p.1.Nodup ∧ (∀ c ∈ p.1, (dynLookup c).isSome) ∧ (p.2 = true → 8 ≤ p.1.length)

theorem seenStep_inv (p : List Char × Bool) (c : Char) (h : seenInv p) :
    seenInv (seenStep p c) := by
  obtain ⟨hnd, hcat, haged⟩ := h
  unfold seenStep seenInv
  dsimp only
  split_ifs with hc
  · refine ⟨?_, ?_, ?_⟩
    · have hnotmem : c ∉ p.1 := by
        intro hmem
        exact hc.2 (by simpa using hmem)
      rw [show p.1 ++ [c] = p.1.concat c from (List.concat_eq_append p.1 c).symm]
      exact List.Nodup.concat hnotmem hnd
    · intro c2 hc2
      rcases List.mem_append.mp hc2 with hm | hm
      · exact hcat c2 hm
      · rw [List.mem_singleton.mp hm]
        exact hc.1
    · intro hflag
      rcases Bool.or_eq_true_iff.mp hflag with hb | hb
      · have := haged hb
        rw [List.length_append]
        omega
      · have := of_decide_eq_true hb
        rw [List.length_append]
        omega
  · refine ⟨hnd, hcat, ?_⟩
    intro hflag
    rcases Bool.or_eq_true_iff.mp hflag with hb | hb
    · exact haged hb
    · have := of_decide_eq_true hb
      omega

theorem seenSt_inv (l : List Char) : seenInv (seenSt l) := by
  have main : ∀ (r : List Char) (p : List Char × Bool), seenInv p →
      seenInv (r.foldl seenStep p) := by
    intro r
    induction r with
    | nil => intro p h; exact h
    | cons c rest ih =>
      intro p h
      exact ih (seenStep p c) (seenStep_inv p c h)
  exact main l ([], false) ⟨List.nodup_nil, by simp, by simp⟩

/-- Characterization of reachable glyph-cache states: as long as at most 8
distinct catalog characters have been processed, the cache state is the
canonical state of the first-occurrence list together with the aged flag. -/
theorem cacheRun_canon (l : List Char) (h8 : (catChars l).length ≤ 8) :
    runChars true initDyn l = canonState (catChars l) (agedFlag l) := by
  induction l using List.reverseRecOn with
  | nil => rfl
  | append_singleton l c ih =>
    have hext : ∃ t, catChars l ++ t = catChars (l ++ [c]) := by
      unfold catChars
      rw [seenSt_append_char]
      exact seenStep_fst_extends (seenSt l) c
    have h8l : (catChars l).length ≤ 8 := by
      obtain ⟨t, ht⟩ := hext
      have := congrArg List.length ht
      rw [List.length_append] at this
      omega
    have hrun := ih h8l
    obtain ⟨hnd, hcats, haged⟩ := seenSt_inv l
    unfold catChars at h8 h8l
    unfold catChars agedFlag at hrun ⊢
    rw [runChars_append_char, hrun]
    rw [seenSt_append_char] at h8 ⊢
    by_cases hcond : ((dynLookup c).isSome = true) ∧ ¬ ((seenSt l).1.contains c = true)
    · -- a catalog character not seen before
      have hstep : seenStep (seenSt l) c
          = ((seenSt l).1 ++ [c], (seenSt l).2 || decide ((seenSt l).1.length = 8)) := by
        unfold seenStep
        rw [if_pos hcond]
      have hnotmem : c ∉ (seenSt l).1 := by
        intro hmem
        exact hcond.2 (by simpa using hmem)
      obtain ⟨entry, hentry⟩ := Option.isSome_iff_exists.mp hcond.1
      have hlt : (seenSt l).1.length < 8 := by
        have h9 := h8
        rw [hstep] at h9
        dsimp only at h9
        rw [List.length_append, List.length_singleton] at h9
        omega
      have hagedf : (seenSt l).2 = false := by
        by_contra hb
        rw [Bool.not_eq_false] at hb
        have := haged hb
        omega
      rw [hstep]
      dsimp only
      rw [show (decide ((seenSt l).1.length = 8)) = false by
        rw [decide_eq_false_iff_not]; omega]
      rw [hagedf] at hrun ⊢
      simp only [Bool.or_false]
      rw [cell_canon_new (seenSt l).1 c entry hlt hnotmem hentry]
    · -- not a catalog character, or already mapped
      have hstep : seenStep (seenSt l) c
          = ((seenSt l).1, (seenSt l).2 || decide ((seenSt l).1.length = 8)) := by
        unfold seenStep
        rw [if_neg hcond]
      rw [hstep]
      by_cases hcat : (dynLookup c).isSome = true
      · -- already mapped: the allocator reports the existing slot
        have hmem : c ∈ (seenSt l).1 := by
          by_contra hmem
          exact hcond ⟨hcat, by simpa using hmem⟩
        obtain ⟨entry, hentry⟩ := Option.isSome_iff_exists.mp hcat
        obtain ⟨i, hi, hieq⟩ := List.getElem_of_mem hmem
        have hget : dictGet (canonDictAux 0 (seenSt l).1) c = some i := by
          have := canonDictAux_get_of_getD (seenSt l).1 hnd 0 i hi
          rw [List.getD_eq_getElem?_getD, List.getElem?_eq_getElem hi] at this
          simpa [hieq] using this
        rw [cell_canon_hit (seenSt l).1 (seenSt l).2 c i entry h8l hget hentry]
      · have hnone : (if true then dynLookup c else none) = none := by
          simpa using Option.not_isSome_iff_eq_none.mp (by simpa using hcat)
        rw [cell_canon_skip true (seenSt l).1 (seenSt l).2 c h8l hnone]


/-! ### Claim C2: round-robin glyph-cache allocation and eviction -/

/-- CGRAM pattern of a catalog character. -/
def dynPattern (c : Char) : List Nat :=
  ((dynLookup c).map (fun e => e.1)).getD []

/-- C2: pushing changed-cell characters through `flush`'s per-cell cache
operation (aging followed by `_encode_for_lcd`), as long as at most 8
distinct catalog characters have been brought in, no previously mapped
character is ever evicted (every mapping visible after any prefix survives,
at the same slot, to the end); and when a 9th distinct catalog character is
introduced, exactly one previously mapped character — the first one
allocated, sitting in slot 0, chosen by the round-robin rotation — is
evicted, the newcomer takes slot 0, all other mappings survive unchanged,
and that slot is re-programmed through the driver's glyph-programming call
(`create_char`). -/
theorem c2_glyph_cache_round_robin (l : List Char) (c : Char)
    (h8 : (catChars l).length ≤ 8) :
    (∀ (i : Nat) (ch : Char) (s : Nat),
        dictGet (runChars true initDyn (l.take i)).charToSlot ch = some s →
        dictGet (runChars true initDyn l).charToSlot ch = some s) ∧
    ((catChars l).length = 8 → dynCatalog c → c ∉ catChars l →
      dictGet (runChars true initDyn (l ++ [c])).charToSlot c = some 0 ∧
      dictGet (runChars true initDyn (l ++ [c])).charToSlot
          ((catChars l).getD 0 (Char.ofNat 0)) = none ∧
      (∀ i : Nat, 1 ≤ i → i < 8 →
        dictGet (runChars true initDyn (l ++ [c])).charToSlot
            ((catChars l).getD i (Char.ofNat 0)) = some i) ∧
      (cellCache true (runChars true initDyn l) c).events
        = [LcdEvent.createChar 0 (dynPattern c)]) := by
  obtain ⟨hnd, hcats, haged⟩ := seenSt_inv l
  have hrun := cacheRun_canon l h8
  constructor
  · intro i ch s hget
    obtain ⟨t, hpre⟩ := catChars_take_prefix l i
    have h8t : (catChars (l.take i)).length ≤ 8 := by
      have := congrArg List.length hpre
      rw [List.length_append] at this
      omega
    have hrunt := cacheRun_canon (l.take i) h8t
    rw [hrunt] at hget
    rw [hrun]
    obtain ⟨j, hj, hgd, hs⟩ := canonDictAux_get_some (catChars (l.take i)) 0 ch s
      (by exact hget)
    have hgd2 : (catChars l).getD j (Char.ofNat 0) = ch := by
      rw [← hpre, List.getD_append _ _ _ _ hj]
      exact hgd
    have hjl : j < (catChars l).length := by
      have := congrArg List.length hpre
      rw [List.length_append] at this
      omega
    have := canonDictAux_get_of_getD (catChars l) (by
      unfold catChars
      exact hnd) 0 j hjl
    rw [hgd2] at this
    rw [show (canonState (catChars l) (agedFlag l)).charToSlot
        = canonDictAux 0 (catChars l) from rfl]
    rw [this, hs]
  · intro hc8 hccat hcnot
    obtain ⟨c0, rest, hcs⟩ : ∃ c0 rest, catChars l = c0 :: rest := by
      cases hcse : catChars l with
      | nil => rw [hcse] at hc8; simp at hc8
      | cons a b => exact ⟨a, b, rfl⟩
    have hrest7 : rest.length = 7 := by
      rw [hcs] at hc8
      simpa using hc8
    have hnd' : (c0 :: rest).Nodup := by
      rw [← hcs]
      exact hnd
    have hch' : c ∉ (c0 :: rest) := by
      rw [← hcs]
      exact hcnot
    obtain ⟨entry, hentry⟩ := Option.isSome_iff_exists.mp hccat
    have hcell := cell_canon_ninth c0 rest c (agedFlag l) entry hrest7 hnd' hch' hentry
    have hstep : runChars true initDyn (l ++ [c]) = postNinth rest c := by
      rw [runChars_append_char, hrun, hcs, hcell]
    have hrestnd : rest.Nodup := (List.nodup_cons.mp hnd').2
    have hc0rest : c0 ∉ rest := (List.nodup_cons.mp hnd').1
    have hcrest : c ∉ rest := by
      intro hm
      exact hch' (List.mem_cons_of_mem c0 hm)
    have hcc0 : ¬ (c == c0) = true := by
      intro hb
      exact hch' (by rw [beq_iff_eq.mp hb]; exact List.mem_cons_self c0 rest)
    refine ⟨?_, ?_, ?_, ?_⟩
    · rw [hstep]
      show dictGet (canonDictAux 1 rest ++ [(c, 0)]) c = some 0
      rw [dictGet_append, canonDictAux_get_not_mem rest c hcrest 1]
      rw [dictGet_cons, if_pos (by simp)]
    · rw [hstep, hcs]
      show dictGet (canonDictAux 1 rest ++ [(c, 0)]) ((c0 :: rest).getD 0 (Char.ofNat 0))
          = none
      rw [List.getD_cons_zero, dictGet_append,
        canonDictAux_get_not_mem rest c0 hc0rest 1]
      rw [dictGet_cons, if_neg (by
        intro hb
        exact hcc0 (by rw [beq_iff_eq] at hb ⊢; exact hb))]
      rfl
    · intro i h1 h8i
      rw [hstep, hcs]
      show dictGet (canonDictAux 1 rest ++ [(c, 0)]) ((c0 :: rest).getD i (Char.ofNat 0))
          = some i
      rw [show i = (i - 1) + 1 by omega, List.getD_cons_succ]
      have hgd := canonDictAux_get_of_getD rest hrestnd 1 (i - 1) (by omega)
      rw [dictGet_append, hgd]
      dsimp only
      congr 1
      omega
    · rw [hrun, hcs, hcell]
      show [LcdEvent.createChar 0 entry.1] = [LcdEvent.createChar 0 (dynPattern c)]
      unfold dynPattern
      rw [hentry]
      rfl

/-- Eight distinct catalog characters, in the order they are processed. -/
def c2Eight : List Char := ['ą', 'Ą', 'ć', 'Ć', 'ę', 'Ę', 'ł', 'Ł']

/-- C2 witness: the round-robin theorem instantiated on eight concrete
catalog characters followed by `ń` as the ninth. -/
theorem c2_glyph_cache_round_robin_witness :
    (∀ (i : Nat) (ch : Char) (s : Nat),
        dictGet (runChars true initDyn (c2Eight.take i)).charToSlot ch = some s →
        dictGet (runChars true initDyn c2Eight).charToSlot ch = some s) ∧
    ((catChars c2Eight).length = 8 → dynCatalog 'ń' → 'ń' ∉ catChars c2Eight →
      dictGet (runChars true initDyn (c2Eight ++ ['ń'])).charToSlot 'ń' = some 0 ∧
      dictGet (runChars true initDyn (c2Eight ++ ['ń'])).charToSlot
          ((catChars c2Eight).getD 0 (Char.ofNat 0)) = none ∧
      (∀ i : Nat, 1 ≤ i → i < 8 →
        dictGet (runChars true initDyn (c2Eight ++ ['ń'])).charToSlot
            ((catChars c2Eight).getD i (Char.ofNat 0)) = some i) ∧
      (cellCache true (runChars true initDyn c2Eight) 'ń').events
        = [LcdEvent.createChar 0 (dynPattern 'ń')]) :=
  c2_glyph_cache_round_robin c2Eight 'ń' (by decide)


/-! ### Claim C1: glyph-cache bookkeeping invariant -/

/-- Homogeneous phase: the used mask marks exactly the occupied slots and
its bit count equals the number of live mappings. -/
def DynPhaseA (d : DynState) : Prop :=
  (∀ s, s < 8 → d.usedMask.testBit s = (d.slotToChar.getD s none).isSome) ∧
  maskCount d.usedMask = d.charToSlot.length

/-- Aged phase: all 8 slots are mapped but the rotation has freed one mask
bit that has not been reallocated yet. -/
def DynPhaseB (d : DynState) : Prop :=
  d.charToSlot.length = 8 ∧
  (∀ s, s < 8 → (d.slotToChar.getD s none).isSome = true) ∧
  ∃ b, b < 8 ∧ d.usedMask = 255 - 2 ^ b

/-- Inductive invariant of the glyph-cache state. -/
def DynInv (d : DynState) : Prop :=
  d.slotToChar.length = 8 ∧
  d.rotateIndex < 8 ∧
  d.usedMask < 256 ∧
  (d.charToSlot.map Prod.fst).Nodup ∧
  (∀ p ∈ d.charToSlot, p.2 < 8 ∧ d.slotToChar.getD p.2 none = some p.1) ∧
  (∀ s, s < 8 → ∀ c2, d.slotToChar.getD s none = some c2 →
      dictGet d.charToSlot c2 = some s) ∧
  (DynPhaseA d ∨ DynPhaseB d)

theorem dictGet_mem (d : List (Char × Nat)) (c : Char) (s : Nat)
    (h : dictGet d c = some s) : (c, s) ∈ d := by
  unfold dictGet at h
  cases hfind : d.find? (fun p => p.1 == c) with
  | none => rw [hfind] at h; cases h
  | some p =>
    rw [hfind] at h
    have hp := List.find?_some hfind
    have hmem := List.mem_of_find?_eq_some hfind
    have hc : p.1 = c := beq_iff_eq.mp hp
    have hs : p.2 = s := by simpa using h
    have : p = (c, s) := Prod.ext hc hs
    rw [← this]
    exact hmem

theorem initDyn_inv : DynInv initDyn := by
  refine ⟨rfl, by decide, by decide, List.nodup_nil, ?_, ?_, Or.inl ⟨?_, by decide⟩⟩
  · intro p hp
    cases hp
  · intro s hs c2 hc2
    rw [show (initDyn.slotToChar.getD s none) = none by
      show ((List.replicate 8 (none : Option Char)).getD s none) = none
      rw [List.getD_eq_getElem?_getD]
      rcases lt_or_ge s 8 with hlt | hge
      · rw [List.getElem?_replicate, if_pos (by simpa using hlt)]
        rfl
      · rw [List.getElem?_eq_none (by simpa using hge)]
        rfl] at hc2
    cases hc2
  · intro s hs
    show (Nat.testBit 0 s) = ((List.replicate 8 (none : Option Char)).getD s none).isSome
    rw [Nat.zero_testBit]
    rw [List.getD_eq_getElem?_getD, List.getElem?_replicate, if_pos (by simpa using hs)]
    rfl

theorem age_inv (d : DynState) (h : DynInv d) : DynInv (ageDynamicMaskIfFull d) := by
  obtain ⟨hlen, hrot, hmask, hnd, hto, hback, hphase⟩ := h
  unfold ageDynamicMaskIfFull
  by_cases hfull : d.usedMask = 255
  · rw [if_pos hfull]
    dsimp only
    have hA : DynPhaseA d := by
      rcases hphase with hA | hB
      · exact hA
      · obtain ⟨_, _, b, hb, hmb⟩ := hB
        exact absurd (hmb ▸ hfull) (sub_pow_ne_255 b hb)
    have hcount : d.charToSlot.length = 8 := by
      have := hA.2
      rw [hfull] at this
      rw [← this]
      decide
    have hallocc : ∀ s, s < 8 → (d.slotToChar.getD s none).isSome = true := by
      intro s hs
      rw [← hA.1 s hs, hfull]
      exact testBit_255 s hs
    refine ⟨hlen, ?_, ?_, hnd, hto, hback, Or.inr ⟨hcount, hallocc, d.rotateIndex, hrot, ?_⟩⟩
    · show (d.rotateIndex + 1) % 8 < 8
      omega
    · show clearBit d.usedMask d.rotateIndex < 256
      rw [hfull, clearBit_255 d.rotateIndex hrot]
      exact lt_of_le_of_lt (Nat.sub_le 255 _) (by norm_num)
    · show clearBit d.usedMask d.rotateIndex = 255 - 2 ^ d.rotateIndex
      rw [hfull, clearBit_255 d.rotateIndex hrot]
  · rw [if_neg hfull]
    exact ⟨hlen, hrot, hmask, hnd, hto, hback, hphase⟩


theorem alloc_inv (d : DynState) (ch : Char) (h : DynInv d) :
    DynInv (allocDynamicSlot d ch).2.1 := by
  obtain ⟨hlen, hrot, hmask, hnd, hto, hback, hphase⟩ := h
  unfold allocDynamicSlot
  cases hget : dictGet d.charToSlot ch with
  | some s => exact ⟨hlen, hrot, hmask, hnd, hto, hback, hphase⟩
  | none =>
    cases hfind : (List.range 8).find? (fun slot => d.usedMask &&& (1 <<< slot) == 0) with
    | none => exact ⟨hlen, hrot, hmask, hnd, hto, hback, hphase⟩
    | some slot =>
      obtain ⟨hslot8, hbit⟩ := find?_free_slot_spec d.usedMask slot hfind
      dsimp only
      have hmask' : d.usedMask ||| (1 <<< slot) < 256 := by
        have h1 : d.usedMask < 2 ^ 8 := hmask
        have h2 : (1 <<< slot) < 2 ^ 8 := by
          rw [Nat.shiftLeft_eq, one_mul]
          exact Nat.pow_lt_pow_right (by norm_num) hslot8
        exact Nat.or_lt_two_pow h1 h2
      cases hold : d.slotToChar.getD slot none with
      | none =>
        -- target slot empty: plain insertion
        have hA : DynPhaseA d := by
          rcases hphase with hA | hB
          · exact hA
          · exfalso
            have := hB.2.1 slot hslot8
            rw [hold] at this
            cases this
        have hsetdict : dictSet d.charToSlot ch slot = d.charToSlot ++ [(ch, slot)] :=
          dictSet_of_get_none _ _ _ hget
        have hD : DynInv
            { charToSlot := dictSet d.charToSlot ch slot,
              slotToChar := d.slotToChar.set slot (some ch),
              usedMask := d.usedMask ||| (1 <<< slot),
              rotateIndex := d.rotateIndex } := by
          refine ⟨by simpa using hlen, hrot, hmask', ?_, ?_, ?_, Or.inl ⟨?_, ?_⟩⟩
          · show ((dictSet d.charToSlot ch slot).map Prod.fst).Nodup
            rw [hsetdict, List.map_append]
            rw [show (([(ch, slot)] : List (Char × Nat)).map Prod.fst) = [ch] from rfl]
            rw [show (d.charToSlot.map Prod.fst) ++ [ch]
                = (d.charToSlot.map Prod.fst).concat ch from (List.concat_eq_append _ _).symm]
            exact List.Nodup.concat ((dictGet_eq_none_iff _ _).mp hget) hnd
          · intro p hp
            rw [hsetdict] at hp
            rcases List.mem_append.mp hp with hp | hp
            · have hp2 := hto p hp
              have hne : p.2 ≠ slot := by
                intro heq
                rw [heq, hold] at hp2
                cases hp2.2
              exact ⟨hp2.1, by rw [getD_set_ne _ _ _ _ (Ne.symm hne)]; exact hp2.2⟩
            · rw [List.mem_singleton.mp hp]
              exact ⟨hslot8, getD_set_self _ slot _ (by omega)⟩
          · intro s hs c2 hc2
            rw [hsetdict]
            by_cases hsl : s = slot
            · subst hsl
              rw [getD_set_self _ s _ (by omega)] at hc2
              have hc2' : c2 = ch := by simpa using hc2.symm
              subst hc2'
              rw [dictGet_append, hget]
              rw [dictGet_cons, if_pos (by simp)]
            · rw [getD_set_ne _ _ _ _ (fun hh => hsl hh.symm)] at hc2
              have := hback s hs c2 hc2
              rw [dictGet_append, this]
          · intro s hs
            rw [Nat.testBit_or, Nat.shiftLeft_eq, one_mul, Nat.testBit_two_pow]
            by_cases hsl : s = slot
            · subst hsl
              rw [getD_set_self _ s _ (by omega)]
              simp
            · rw [getD_set_ne _ _ _ _ (fun hh => hsl hh.symm)]
              rw [show (decide (slot = s)) = false by
                rw [decide_eq_false_iff_not]; exact fun hh => hsl hh.symm]
              rw [Bool.or_false]
              exact hA.1 s hs
          · show maskCount (d.usedMask ||| (1 <<< slot)) = (dictSet d.charToSlot ch slot).length
            rw [maskCount_or_free d.usedMask slot hslot8 hbit, hsetdict,
              List.length_append, hA.2]
            rfl
        cases hdl : dynLookup ch with
        | none => exact hD
        | some entry => exact hD
      | some oldc =>
        -- target slot freed by rotation but still occupied: eviction
        have hB : DynPhaseB d := by
          rcases hphase with hA | hB
          · exfalso
            have := hA.1 slot hslot8
            rw [hold, hbit] at this
            cases this
          · exact hB
        obtain ⟨hlen8, hallocc, b, hb, hmb⟩ := hB
        have hslotb : slot = b := by
          have := testBit_255_sub b slot hb hslot8
          rw [← hmb, hbit] at this
          have := this.symm
          rw [Bool.not_eq_false'] at this
          exact of_decide_eq_true this
        have holdget : dictGet d.charToSlot oldc = some slot := hback slot hslot8 oldc hold
        have hpopch : dictGet (dictPop d.charToSlot oldc) ch = none := by
          rw [dictGet_pop]
          split_ifs with hco
          · rfl
          · exact hget
        have hsetdict : dictSet (dictPop d.charToSlot oldc) ch slot
            = dictPop d.charToSlot oldc ++ [(ch, slot)] :=
          dictSet_of_get_none _ _ _ hpopch
        have hpopnd : ((dictPop d.charToSlot oldc).map Prod.fst).Nodup :=
          List.Nodup.sublist (List.Sublist.map _ (dictPop_sublist _ _)) hnd
        have hpoplen : (dictPop d.charToSlot oldc).length + 1 = d.charToSlot.length := by
          apply dictPop_length _ _ hnd
          rw [holdget]
          simp
        have hD : DynInv
            { charToSlot := dictSet (dictPop d.charToSlot oldc) ch slot,
              slotToChar := d.slotToChar.set slot (some ch),
              usedMask := d.usedMask ||| (1 <<< slot),
              rotateIndex := d.rotateIndex } := by
          refine ⟨by simpa using hlen, hrot, hmask', ?_, ?_, ?_, Or.inl ⟨?_, ?_⟩⟩
          · show ((dictSet (dictPop d.charToSlot oldc) ch slot).map Prod.fst).Nodup
            rw [hsetdict, List.map_append]
            rw [show (([(ch, slot)] : List (Char × Nat)).map Prod.fst) = [ch] from rfl]
            rw [show ((dictPop d.charToSlot oldc).map Prod.fst) ++ [ch]
                = ((dictPop d.charToSlot oldc).map Prod.fst).concat ch from
              (List.concat_eq_append _ _).symm]
            exact List.Nodup.concat ((dictGet_eq_none_iff _ _).mp hpopch) hpopnd
          · intro p hp
            rw [hsetdict] at hp
            rcases List.mem_append.mp hp with hp | hp
            · have hpin : p ∈ d.charToSlot := List.mem_of_mem_filter hp
              have hpnold : ¬ (p.1 == oldc) = true := by
                have := List.of_mem_filter hp
                simpa using this
              have hp2 := hto p hpin
              have hne : p.2 ≠ slot := by
                intro heq
                rw [heq, hold] at hp2
                have : p.1 = oldc := by simpa using hp2.2.symm
                exact hpnold (by simpa using this)
              exact ⟨hp2.1, by rw [getD_set_ne _ _ _ _ (Ne.symm hne)]; exact hp2.2⟩
            · rw [List.mem_singleton.mp hp]
              exact ⟨hslot8, getD_set_self _ slot _ (by omega)⟩
          · intro s hs c2 hc2
            rw [hsetdict]
            by_cases hsl : s = slot
            · subst hsl
              rw [getD_set_self _ s _ (by omega)] at hc2
              have hc2' : c2 = ch := by simpa using hc2.symm
              subst hc2'
              rw [dictGet_append, hpopch]
              rw [dictGet_cons, if_pos (by simp)]
            · rw [getD_set_ne _ _ _ _ (fun hh => hsl hh.symm)] at hc2
              have hd2 := hback s hs c2 hc2
              have hc2old : c2 ≠ oldc := by
                intro heq
                rw [heq, holdget] at hd2
                have hss : s = slot := by simpa using hd2.symm
                exact hsl hss
              have : dictGet (dictPop d.charToSlot oldc) c2 = some s := by
                rw [dictGet_pop, if_neg hc2old]
                exact hd2
              rw [dictGet_append, this]
          · intro s hs
            rw [Nat.testBit_or, Nat.shiftLeft_eq, one_mul, Nat.testBit_two_pow]
            by_cases hsl : s = slot
            · subst hsl
              rw [getD_set_self _ s _ (by omega)]
              simp
            · rw [getD_set_ne _ _ _ _ (fun hh => hsl hh.symm)]
              rw [hallocc s hs]
              rw [hmb, hslotb, testBit_255_sub b s hb hs]
              rw [show (decide (s = b)) = false by
                rw [decide_eq_false_iff_not]
                intro hh
                exact hsl (hh.trans hslotb.symm)]
              rfl
          · show maskCount (d.usedMask ||| (1 <<< slot))
                = (dictSet (dictPop d.charToSlot oldc) ch slot).length
            rw [hsetdict, hmb, hslotb, or_sub_pow b hb, List.length_append]
            rw [show maskCount 255 = 8 from by decide]
            simp only [List.length_singleton]
            omega
        cases hdl : dynLookup ch with
        | none => exact hD
        | some entry => exact hD


theorem encode_inv (useDyn : Bool) (d : DynState) (ch : Char) (h : DynInv d) :
    DynInv (encodeForLcd useDyn d ch).dyn := by
  unfold encodeForLcd
  cases hdl : (if useDyn then dynLookup ch else none) with
  | none => exact h
  | some entry =>
    have halloc := alloc_inv d ch h
    cases hres : allocDynamicSlot d ch with
    | mk fst rest =>
      cases rest with
      | mk d2 ev =>
        rw [hres] at halloc
        dsimp only at halloc
        cases fst with
        | none => exact halloc
        | some sc => exact halloc

theorem cellCache_inv (useDyn : Bool) (d : DynState) (ch : Char) (h : DynInv d) :
    DynInv (cellCache useDyn d ch).dyn :=
  encode_inv useDyn _ ch (age_inv d h)

theorem flushStep_inv (cols : Nat) (useDyn : Bool) (a : FlushAcc) (ic : Nat × Char)
    (h : DynInv a.dyn) : DynInv (flushStep cols useDyn a ic).dyn := by
  unfold flushStep
  dsimp only
  split_ifs with hc hcur
  · exact h
  · exact cellCache_inv useDyn a.dyn ic.2 h
  · exact cellCache_inv useDyn a.dyn ic.2 h

theorem flush_inv (st : LCDSState) (h : DynInv st.dyn) : DynInv (flush st).1.dyn := by
  show DynInv
    (st.buf.enum.foldl (flushStep st.cols st.useDyn) ⟨st.shadow, st.dyn, -10000, []⟩).dyn
  have main : ∀ (l : List (Nat × Char)) (a : FlushAcc), DynInv a.dyn →
      DynInv (l.foldl (flushStep st.cols st.useDyn) a).dyn := by
    intro l
    induction l with
    | nil => intro a ha; exact ha
    | cons p rest ih => intro a ha; exact ih _ (flushStep_inv _ _ a p ha)
  exact main _ _ h

theorem lApply_inv (st : LCDSState) (op : LOp) (h : DynInv st.dyn) :
    DynInv (lApply st op).dyn := by
  cases op with
  | writeAtOp c r t =>
    have hdy : (writeAt st c r t).dyn = st.dyn := by
      unfold writeAt
      dsimp only
      split_ifs <;> rfl
    show DynInv (writeAt st c r t).dyn
    rw [hdy]
    exact h
  | putsOp t =>
    have hdy : (puts st t).dyn = st.dyn := by
      unfold puts
      dsimp only
      split_ifs <;> rfl
    show DynInv (puts st t).dyn
    rw [hdy]
    exact h
  | clearOp => exact h
  | clearLineOp r => exact h
  | flushOp => exact flush_inv st h
  | resetOp => exact initDyn_inv

theorem lRun_inv (cols rows : Nat) (useDyn : Bool) (ops : List LOp) :
    DynInv (lRun cols rows useDyn ops).dyn := by
  have main : ∀ (l : List LOp) (st : LCDSState), DynInv st.dyn →
      DynInv (l.foldl lApply st).dyn := by
    intro l
    induction l with
    | nil => intro st hst; exact hst
    | cons op rest ih => intro st hst; exact ih _ (lApply_inv st op hst)
  exact main ops _ initDyn_inv

/-- C1 amended: after any sequence of buffered-screen operations the
char-to-slot and slot-to-char mappings are mutually consistent (a character
maps to a slot exactly when the slot's reverse mapping points back to it),
and the number of set bits in the used-slot mask equals the number of live
mappings, or — when all 8 mappings are live and the round-robin rotation
has freed one mask bit that has not yet been reallocated — is exactly one
less. -/
theorem c1_amended_cache_invariant (cols rows : Nat) (useDyn : Bool)
    (ops : List LOp) :
    (∀ (c : Char) (s : Nat),
        dictGet (lRun cols rows useDyn ops).dyn.charToSlot c = some s →
        s < 8 ∧ (lRun cols rows useDyn ops).dyn.slotToChar.getD s none = some c) ∧
    (∀ (s : Nat) (c : Char), s < 8 →
        (lRun cols rows useDyn ops).dyn.slotToChar.getD s none = some c →
        dictGet (lRun cols rows useDyn ops).dyn.charToSlot c = some s) ∧
    (maskCount (lRun cols rows useDyn ops).dyn.usedMask
        = (lRun cols rows useDyn ops).dyn.charToSlot.length ∨
      ((lRun cols rows useDyn ops).dyn.charToSlot.length = 8 ∧
        maskCount (lRun cols rows useDyn ops).dyn.usedMask = 7)) := by
  obtain ⟨hlen, hrot, hmask, hnd, hto, hback, hphase⟩ := lRun_inv cols rows useDyn ops
  refine ⟨?_, ?_, ?_⟩
  · intro c s hget
    exact hto (c, s) (dictGet_mem _ c s hget)
  · intro s c hs hslot
    exact hback s hs c hslot
  · rcases hphase with hA | hB
    · exact Or.inl hA.2
    · right
      obtain ⟨hlen8, hocc, b, hb, hmb⟩ := hB
      exact ⟨hlen8, by rw [hmb]; exact maskCount_255_sub b hb⟩

/-- Run that fills all 8 slots with distinct catalog characters, flushes,
then overwrites one cell with a plain ASCII character and flushes again. -/
def c1Ops : List LOp :=
  [LOp.writeAtOp 0 0 ['ą', 'Ą', 'ć', 'Ć', 'ę', 'Ę', 'ł', 'Ł'], LOp.flushOp,
   LOp.writeAtOp 0 0 ['x'], LOp.flushOp]

set_option maxRecDepth 8192 in
/-- C1 counterexample: after the second flush of `c1Ops` the aging step has
freed one mask bit (the changed cell held a non-catalog character, so no
allocation followed), leaving 7 set bits in the used mask while all 8
char-to-slot mappings are still live — the claimed equality of the two
counts fails on this reachable state. -/
theorem c1_counterexample :
    maskCount (lRun 8 1 true c1Ops).dyn.usedMask = 7 ∧
    (lRun 8 1 true c1Ops).dyn.charToSlot.length = 8 ∧
    ¬ (maskCount (lRun 8 1 true c1Ops).dyn.usedMask
        = (lRun 8 1 true c1Ops).dyn.charToSlot.length) := by
  refine ⟨by decide, by decide, by decide⟩


/-! ### `flush` drives the glyph cache exactly through the per-cell operation -/

/-- Characters of the cells a `flush` of this state will actually process
(buffer cells differing from the shadow), in row-major order. -/
def changedChars (st : LCDSState) : List Char :=
  (st.buf.enum.filter
      (fun ic => !(st.shadow.getD ic.1 (Char.ofNat 0) == ic.2))).map (fun ic => ic.2)

theorem list_getD_set_ne {α : Type} (l : List α) (i j : Nat) (v d : α)
    (h : i ≠ j) : (l.set i v).getD j d = l.getD j d := by
  rw [List.getD_eq_getElem?_getD, List.getD_eq_getElem?_getD,
    List.getElem?_set, if_neg h]

theorem flushFold_dyn (cols : Nat) (useDyn : Bool) (sh0 : List Char) (l : List Char) :
    ∀ (n : Nat) (a : FlushAcc),
      (∀ k : Nat, a.shadow.getD (n + k) (Char.ofNat 0) = sh0.getD (n + k) (Char.ofNat 0)) →
      ((List.enumFrom n l).foldl (flushStep cols useDyn) a).dyn
        = runChars useDyn a.dyn
            (((List.enumFrom n l).filter
                (fun ic => !(sh0.getD ic.1 (Char.ofNat 0) == ic.2))).map (fun ic => ic.2)) := by
  induction l with
  | nil => intro n a _; rfl
  | cons c cs ih =>
    intro n a hag
    have hsh0 : a.shadow.getD n (Char.ofNat 0) = sh0.getD n (Char.ofNat 0) := by
      have := hag 0
      rwa [Nat.add_zero] at this
    show ((List.enumFrom (n + 1) cs).foldl (flushStep cols useDyn)
        (flushStep cols useDyn a (n, c))).dyn = runChars useDyn a.dyn
          ((((n, c) :: List.enumFrom (n + 1) cs).filter
              (fun ic => !(sh0.getD ic.1 (Char.ofNat 0) == ic.2))).map (fun ic => ic.2))
    rw [List.filter_cons]
    by_cases hskip : (sh0.getD n (Char.ofNat 0) == c) = true
    · have hcond : (a.shadow.getD n (Char.ofNat 0) == c) = true := by
        rw [hsh0]; exact hskip
      have hstep : flushStep cols useDyn a (n, c) = a := by
        unfold flushStep
        dsimp only
        rw [if_pos hcond]
      rw [hstep]
      rw [show (!(sh0.getD (n, c).1 (Char.ofNat 0) == (n, c).2)) = false by
        simpa using hskip]
      simp only [Bool.false_eq_true, if_false]
      exact ih (n + 1) a (fun k => by
        have := hag (1 + k)
        rwa [show n + (1 + k) = n + 1 + k by omega] at this)
    · have hcond : ¬ (a.shadow.getD n (Char.ofNat 0) == c) = true := by
        rw [hsh0]; exact hskip
      have hdyn : (flushStep cols useDyn a (n, c)).dyn = (cellCache useDyn a.dyn c).dyn := by
        unfold flushStep
        dsimp only
        rw [if_neg hcond]
      have hshadow : (flushStep cols useDyn a (n, c)).shadow = a.shadow.set n c := by
        unfold flushStep
        dsimp only
        rw [if_neg hcond]
      rw [show (!(sh0.getD (n, c).1 (Char.ofNat 0) == (n, c).2)) = true by
        simpa using hskip]
      simp only [if_true, List.map_cons]
      have htail := ih (n + 1) (flushStep cols useDyn a (n, c)) (fun k => by
        rw [hshadow, list_getD_set_ne _ _ _ _ _ (by omega)]
        have := hag (1 + k)
        rwa [show n + (1 + k) = n + 1 + k by omega] at this)
      rw [htail, hdyn]
      rfl

/-- The cache state `flush` leaves behind is exactly the fold of the
per-cell cache operation over the changed cells' characters: every sequence
of refreshes drives the glyph cache through `runChars`. -/
theorem flush_dyn_eq_runChars (st : LCDSState) :
    (flush st).1.dyn = runChars st.useDyn st.dyn (changedChars st) := by
  show ((List.enumFrom 0 st.buf).foldl (flushStep st.cols st.useDyn)
      ⟨st.shadow, st.dyn, -10000, []⟩).dyn = _
  exact flushFold_dyn st.cols st.useDyn st.shadow st.buf 0
    ⟨st.shadow, st.dyn, -10000, []⟩ (fun k => rfl)

end HD44780
